import Mathlib

/-!
Verification of the hll-rust repository: cardinality estimators
(HyperLogLog, Flajolet–Martin probabilistic-bit, linear-probabilistic,
exact hash counter), the FASTA k-mer streaming engine, and the packed
2-bit parallel counting pipeline.

Machine integers are modelled as `ℕ` with explicit bounds / truncation
where overflow matters; fallible operations (Rust panics: index out of
bounds, integer underflow, division by zero, failed assertions) return
`Option`; `f64` arithmetic is modelled over `ℝ`.
-/

/-- `u64::trailing_zeros`, fuel-based: counts trailing zero bits of the low
`fuel` bits; `trailingZerosAux 64 0 = 64` as for `0u64.trailing_zeros()`. -/
def trailingZerosAux : ℕ → ℕ → ℕ
  | 0, _ => 0
  | f + 1, n => if n % 2 = 1 then 0 else trailingZerosAux f (n / 2) + 1

/-- Trailing-zero count of a `u64` value (`n < 2^64`). -/
def trailingZeros64 (n : ℕ) : ℕ := trailingZerosAux 64 n

/-- State of `HLLCounter` (src/counters/hll_counter.rs): the precision
`size` and the register array `registers : Vec<u8>`.  The `am` field of the
Rust struct is a pure function of `size` fixed at construction (and merge
requires equal sizes), so it is recomputed in `estimate` rather than
stored; the hasher is an injected strategy, not sketch state. -/
structure HLLCounter where
  size : ℕ
  registers : List ℕ
  deriving Repr, DecidableEq

namespace HLLCounter

/-- `HLLCounter::new`: `registers = vec![u8::MIN; 1 << size]`. -/
def new (size : ℕ) : HLLCounter :=
  ⟨size, List.replicate (2 ^ size) 0⟩

/-- `HLLCounter::add_hash`: index = low `size` bits, remainder = the rest,
`rho = min(remainder.trailing_zeros() + 1, 64 - size)`; the register is
updated to the max of its current value and `rho`.  `self.registers[index]`
panics when out of bounds, hence the `Option`. -/
def add_hash (c : HLLCounter) (hash : ℕ) : Option HLLCounter :=
  let index := hash &&& (2 ^ c.size - 1)
  let remainder := hash >>> c.size
  let rho := min (trailingZeros64 remainder + 1) (64 - c.size)
  if h : index < c.registers.length then
    some { c with registers := c.registers.set index (max (c.registers.get ⟨index, h⟩) rho) }
  else none

/-- `HLLCounter::merge`: `assert_eq!(self.size, other.size)` (panic — `none` —
on mismatch), then element-wise max over the zipped register arrays. -/
def merge (c other : HLLCounter) : Option HLLCounter :=
  if c.size = other.size then
    some { c with registers := List.zipWith max c.registers other.registers }
  else none

/-- `HLLCounter::estimate` over `ℝ`: raw estimate
`am * m^2 / Σ 2^(-reg)`, small-range correction via linear counting when
`raw ≤ 2.5 m` and some register is zero, large-range correction when
`raw > 2^64/30`. -/
noncomputable def estimate (c : HLLCounter) : ℝ :=
  let m : ℝ := (2 : ℝ) ^ c.size
  let am : ℝ :=
    if c.size ≤ 4 then 0.673
    else if c.size = 5 then 0.697
    else if c.size = 6 then 0.709
    else 0.7213 / (1 + 1.079 / m)
  let denominator : ℝ := (c.registers.map (fun reg => (2 : ℝ) ^ (-(reg : ℤ)))).sum
  let est := am * m * m / denominator
  if est ≤ 2.5 * m then
    let zeros := (c.registers.filter (fun reg => reg == 0)).length
    if 0 < zeros then m * Real.log (m / zeros) else est
  else if (2 : ℝ) ^ (64 : ℕ) / 30 < est then
    -((2 : ℝ) ^ (64 : ℕ)) * Real.log (1 - est / (2 : ℝ) ^ (64 : ℕ))
  else est

end HLLCounter

/-- Element-wise max on lists is associative (zip truncation included). -/
theorem zipWith_max_assoc :
    ∀ a b c : List ℕ,
      List.zipWith max (List.zipWith max a b) c
        = List.zipWith max a (List.zipWith max b c)
  | [], _, _ => rfl
  | _ :: _, [], _ => rfl
  | _ :: _, _ :: _, [] => rfl
  | x :: a, y :: b, z :: c => by
      simp only [List.zipWith]
      rw [max_assoc, zipWith_max_assoc a b c]

/-- C1: for HyperLogLog sketches of the same precision, `merge` is
element-wise maximum over registers and forms a semilattice join:
`merge(A,A) = A`, `merge(A,B) = merge(B,A)`, and
`merge(merge(A,B),C) = merge(A,merge(B,C))`. -/
theorem hll_merge_semilattice (a b c : HLLCounter)
    (hab : a.size = b.size) (hbc : b.size = c.size) :
    HLLCounter.merge a a = some a ∧
    HLLCounter.merge a b = HLLCounter.merge b a ∧
    (HLLCounter.merge a b).bind (fun x => HLLCounter.merge x c)
      = (HLLCounter.merge b c).bind (fun y => HLLCounter.merge a y) := by
  obtain ⟨sa, ra⟩ := a
  obtain ⟨sb, rb⟩ := b
  obtain ⟨sc, rc⟩ := c
  simp only at hab hbc
  subst hab; subst hbc
  refine ⟨?_, ?_, ?_⟩
  · have hsame : List.zipWith max ra ra = ra := by
      induction ra with
      | nil => rfl
      | cons x t ih => simp [List.zipWith, ih]
    simp [HLLCounter.merge, hsame]
  · simp only [HLLCounter.merge, if_pos]
    rw [List.zipWith_comm_of_comm max (fun x y => max_comm x y)]
  · simp [HLLCounter.merge, zipWith_max_assoc]

/-- Witness for C1 at concrete sketches of precision 1. -/
theorem hll_merge_semilattice_witness :
    (HLLCounter.mk 1 [0, 2]).size = (HLLCounter.mk 1 [3, 1]).size ∧
    (HLLCounter.mk 1 [3, 1]).size = (HLLCounter.mk 1 [2, 2]).size ∧
    (HLLCounter.merge (HLLCounter.mk 1 [0, 2]) (HLLCounter.mk 1 [0, 2])
        = some (HLLCounter.mk 1 [0, 2]) ∧
      HLLCounter.merge (HLLCounter.mk 1 [0, 2]) (HLLCounter.mk 1 [3, 1])
        = HLLCounter.merge (HLLCounter.mk 1 [3, 1]) (HLLCounter.mk 1 [0, 2]) ∧
      (HLLCounter.merge (HLLCounter.mk 1 [0, 2]) (HLLCounter.mk 1 [3, 1])).bind
          (fun x => HLLCounter.merge x (HLLCounter.mk 1 [2, 2]))
        = (HLLCounter.merge (HLLCounter.mk 1 [3, 1]) (HLLCounter.mk 1 [2, 2])).bind
            (fun y => HLLCounter.merge (HLLCounter.mk 1 [0, 2]) y)) :=
  ⟨rfl, rfl,
    hll_merge_semilattice (HLLCounter.mk 1 [0, 2]) (HLLCounter.mk 1 [3, 1])
      (HLLCounter.mk 1 [2, 2]) rfl rfl⟩

/-- Bit length (position of highest set bit + 1), fuel-based. -/
def bitLenAux : ℕ → ℕ → ℕ
  | 0, _ => 0
  | f + 1, n => if n = 0 then 0 else bitLenAux f (n / 2) + 1

/-- Bit length of a `u64` value. -/
def bitLen64 (n : ℕ) : ℕ := bitLenAux 64 n

/-- The candidate register value exactly as claim C4 words it (a formalisation
of the claim, not of the source): the leading-zero-run-length of the remaining
`64 - p` bits of the hash, plus 1, capped at `64 - p`. -/
def leadingZeroCandidate (p hash : ℕ) : ℕ :=
  min (((64 - p) - bitLen64 (hash / 2 ^ p)) + 1) (64 - p)

/-- C4 counterexample: at precision 4 and hash 16 the code sets register 0 to
`trailing_zeros(1) + 1 = 1`, while the claim's leading-zero rule demands 60. -/
theorem hll_add_hash_counterexample :
    (HLLCounter.add_hash (HLLCounter.new 4) 16).map
        (fun c => c.registers.getD 0 0) = some 1 ∧
    leadingZeroCandidate 4 16 = 60 ∧ (1 : ℕ) ≠ 60 := by
  refine ⟨?_, by decide, by decide⟩
  decide

/-- C4 amended: `add_hash` uses the low `p` bits of the hash as register
index, the candidate value is the TRAILING-zero count of the remaining bits
plus 1, capped at `64 - p`, and the register becomes the max of its current
value and the candidate. -/
theorem hll_add_hash_trailing (c : HLLCounter) (hash : ℕ)
    (hsize : c.size < 64) (hlen : c.registers.length = 2 ^ c.size) :
    HLLCounter.add_hash c hash = some { c with registers :=
      (c.registers.set (hash % 2 ^ c.size)
        (max (c.registers.getD (hash % 2 ^ c.size) 0)
          (min (trailingZeros64 (hash / 2 ^ c.size) + 1) (64 - c.size)))) } := by
  have hidx : hash &&& (2 ^ c.size - 1) = hash % 2 ^ c.size :=
    Nat.and_pow_two_sub_one_eq_mod hash c.size
  have hbound : hash % 2 ^ c.size < c.registers.length := by
    rw [hlen]; exact Nat.mod_lt _ (Nat.pos_pow_of_pos _ (by norm_num))
  unfold HLLCounter.add_hash
  rw [Nat.shiftRight_eq_div_pow]
  simp only [hidx]
  rw [dif_pos hbound]
  congr 2
  rw [List.getD_eq_getElem _ _ hbound]
  simp [List.get_eq_getElem]

/-- Witness for the amended C4 at precision 4, hash 16. -/
theorem hll_add_hash_trailing_witness :
    (HLLCounter.new 4).size < 64 ∧
    (HLLCounter.new 4).registers.length = 2 ^ (HLLCounter.new 4).size ∧
    HLLCounter.add_hash (HLLCounter.new 4) 16 = some { HLLCounter.new 4 with
      registers :=
        ((HLLCounter.new 4).registers.set (16 % 2 ^ (HLLCounter.new 4).size)
          (max ((HLLCounter.new 4).registers.getD (16 % 2 ^ (HLLCounter.new 4).size) 0)
            (min (trailingZeros64 (16 / 2 ^ (HLLCounter.new 4).size) + 1)
              (64 - (HLLCounter.new 4).size)))) } :=
  ⟨by decide, by decide,
    hll_add_hash_trailing (HLLCounter.new 4) 16 (by decide) (by decide)⟩

/-- Trailing-ones count of the low `fuel` bits (Rust `u8::trailing_ones`). -/
def trailingOnesAux : ℕ → ℕ → ℕ
  | 0, _ => 0
  | f + 1, n => if n % 2 = 1 then trailingOnesAux f (n / 2) + 1 else 0

/-- `u8::trailing_ones`. -/
def trailingOnes8 (b : ℕ) : ℕ := trailingOnesAux 8 b

/-- Popcount of the low `fuel` bits. -/
def countOnesAux : ℕ → ℕ → ℕ
  | 0, _ => 0
  | f + 1, n => n % 2 + countOnesAux f (n / 2)

/-- `u8::count_zeros`: 8 minus the popcount of the byte. -/
def countZeros8 (b : ℕ) : ℕ := 8 - countOnesAux 8 b

/-- State of `FMCounter` (src/counters/fm_counter.rs): configured `size`
and the byte-backed bitset `Vec<u8>` of `size.div_ceil(8)` bytes. -/
structure FMCounter where
  size : ℕ
  bitset : List ℕ
  deriving Repr, DecidableEq

namespace FMCounter

/-- `FMCounter::new`: `vec![0; size.div_ceil(8)]`. -/
def new (size : ℕ) : FMCounter :=
  ⟨size, List.replicate ((size + 7) / 8) 0⟩

/-- `FMCounter::add` after the injected hash strategy has produced `hash`:
`index = min(hash.trailing_zeros(), size - 1)`, set that bit.  At
`size = 0` the code panics in every profile (`size - 1` underflows with
debug assertions; in release the wrapped index is out of bounds of the
empty bitset), hence `none`. -/
def add_hashed (c : FMCounter) (hash : ℕ) : Option FMCounter :=
  match c.size with
  | 0 => none
  | s + 1 =>
    let index := min (trailingZeros64 hash) s
    if h : index / 8 < c.bitset.length then
      some { c with bitset := (c.bitset.set (index / 8)
        (c.bitset.get ⟨index / 8, h⟩ ||| 2 ^ (index % 8))) }
    else none

/-- The `filter_map(..).next()` scan of `FMCounter::estimate`: the first
byte that is not `u8::MAX` contributes `idx * 8 + byte.trailing_ones()`. -/
def firstUnsetAux : List ℕ → ℕ → Option ℕ
  | [], _ => none
  | b :: rest, idx =>
    if b = 255 then firstUnsetAux rest (idx + 1)
    else some (idx * 8 + trailingOnes8 b)

/-- `FMCounter::estimate`: position of the first unset bit (fallback
`size - 1` when every byte is full), then `2^position / 0.77351`.  The
fallback expression `self.size - 1` is evaluated eagerly by `unwrap_or`,
so at `size = 0` it underflows (debug panic), hence `none`. -/
noncomputable def estimate (c : FMCounter) : Option ℝ :=
  match c.size with
  | 0 => none
  | s + 1 =>
    let first := (firstUnsetAux c.bitset 0).getD s
    some ((2 : ℝ) ^ first / 0.77351)

end FMCounter

/-- State of `LinearCounter` (src/counters/linear_counter.rs). -/
structure LinearCounter where
  size : ℕ
  bit_array : List ℕ
  deriving Repr, DecidableEq

namespace LinearCounter

/-- `LinearCounter::new`: `vec![0; size.div_ceil(8)]`. -/
def new (size : ℕ) : LinearCounter :=
  ⟨size, List.replicate ((size + 7) / 8) 0⟩

/-- `LinearCounter::add` after hashing: `index = hash % size`, set that
bit.  At `size = 0` the modulo is a division by zero (panic), hence
`none`. -/
def add_hashed (c : LinearCounter) (hash : ℕ) : Option LinearCounter :=
  match c.size with
  | 0 => none
  | s + 1 =>
    let index := hash % (s + 1)
    if h : index / 8 < c.bit_array.length then
      some { c with bit_array := (c.bit_array.set (index / 8)
        (c.bit_array.get ⟨index / 8, h⟩ ||| 2 ^ (index % 8))) }
    else none

/-- `LinearCounter::estimate`: `u = max(1, Σ byte.count_zeros())` over the
whole byte array, result `size * ln(size / u)`.  (At `size = 0` the Rust
value is `0.0 * ln(0.0) = NaN`; the `ℝ` model returns the junk value `0`
there — no claim touches that case.) -/
noncomputable def estimate (c : LinearCounter) : ℝ :=
  let num_unset_bits := max 1 ((c.bit_array.map countZeros8).sum)
  (c.size : ℝ) * Real.log ((c.size : ℝ) / (num_unset_bits : ℝ))

end LinearCounter

/-- State of `HashCounter` (src/counters/hash_counter.rs): the set of
64-bit hashes seen. -/
structure HashCounter where
  counter : Finset ℕ

namespace HashCounter

/-- `HashCounter::new` (the size argument is ignored). -/
def new (_size : ℕ) : HashCounter := ⟨∅⟩

/-- `HashCounter::add` after hashing: insert the hash into the set. -/
def add_hashed (c : HashCounter) (hash : ℕ) : HashCounter :=
  ⟨insert hash c.counter⟩

/-- `HashCounter::estimate`: the set's cardinality. -/
noncomputable def estimate (c : HashCounter) : ℝ := (c.counter.card : ℝ)

end HashCounter

/-- C9 counterexample: a fresh size-32 probabilistic-bit counter has ALL
bits unset, so the scan finds the first unset bit at position 0, not
`size - 1 = 31`: the estimate is `2^0 / φ`, not `2^31 / φ`. -/
theorem fm_estimate_fresh_counterexample :
    FMCounter.estimate (FMCounter.new 32) = some ((2 : ℝ) ^ (0 : ℕ) / 0.77351) ∧
    ((2 : ℝ) ^ (0 : ℕ) / 0.77351) ≠ ((2 : ℝ) ^ (31 : ℕ) / 0.77351) := by
  constructor
  · rfl
  · intro h
    have h2 : (2 : ℝ) ^ (0 : ℕ) = (2 : ℝ) ^ (31 : ℕ) := by
      field_simp at h
      linarith
    norm_num at h2

/-- C9 amended: a size-32 probabilistic-bit counter fed zero items has its
first-unset-bit position at 0 (all bits are unset, and the scan runs low to
high), so `estimate()` returns `2^0 / φ`; the `size - 1` fallback applies
only to a fully-set bitset. -/
theorem fm_estimate_fresh :
    FMCounter.firstUnsetAux (FMCounter.new 32).bitset 0 = some 0 ∧
    FMCounter.estimate (FMCounter.new 32) = some ((2 : ℝ) ^ (0 : ℕ) / 0.77351) :=
  ⟨by decide, rfl⟩

/-- C8 counterexample: for a fresh linear counter of size 3 the code counts
unset bits over the whole padded byte (8 bits, not 3), giving
`estimate = 3 * ln(3/8) < 0` — the claim's `u = max(1, unset among the 3
bits) = 3` would give `3 * ln(1) = 0`, and the estimate is negative. -/
theorem linear_estimate_counterexample :
    LinearCounter.estimate (LinearCounter.new 3) = 3 * Real.log (3 / 8) ∧
    LinearCounter.estimate (LinearCounter.new 3) < 0 := by
  have h : LinearCounter.estimate (LinearCounter.new 3) = 3 * Real.log (3 / 8) := by
    show (((3 : ℕ) : ℝ)) * Real.log (((3 : ℕ) : ℝ) / ((max 1 ([(0 : ℕ)].map countZeros8).sum : ℕ) : ℝ))
        = 3 * Real.log (3 / 8)
    norm_num [countZeros8, countOnesAux]
  refine ⟨h, h ▸ ?_⟩
  have hlog : Real.log (3 / 8) < 0 := Real.log_neg (by norm_num) (by norm_num)
  nlinarith

/-- C8 amended: `estimate()` returns `n * ln(n / u)` where `u = max(1,
number of unset bits over the FULL padded byte array — `8 * ceil(n/8)`
bits, padding included)`; the result is non-negative whenever `n` is a
multiple of 8 (then `u ≤ n`), but can be negative otherwise. -/
theorem linear_estimate_nonneg_of_byte_aligned (c : LinearCounter)
    (hpos : 1 ≤ c.size) (halign : 8 ∣ c.size)
    (hlen : c.bit_array.length = (c.size + 7) / 8) :
    0 ≤ LinearCounter.estimate c := by
  have hsum : (c.bit_array.map countZeros8).sum ≤ 8 * c.bit_array.length := by
    induction c.bit_array with
    | nil => simp
    | cons b rest ih =>
      simp only [List.map_cons, List.sum_cons, List.length_cons]
      have hb : countZeros8 b ≤ 8 := Nat.sub_le _ _
      omega
  have hlen8 : 8 * c.bit_array.length = c.size := by
    obtain ⟨m, hm⟩ := halign
    rw [hlen, hm]
    omega
  have hest : LinearCounter.estimate c
      = (c.size : ℝ) * Real.log ((c.size : ℝ)
          / ((max 1 ((c.bit_array.map countZeros8).sum) : ℕ) : ℝ)) := rfl
  rw [hest]
  set u : ℕ := max 1 ((c.bit_array.map countZeros8).sum) with hu_def
  have hu : u ≤ c.size := by omega
  have hupos : (1 : ℕ) ≤ u := le_max_left _ _
  have h0 : (0 : ℝ) < (u : ℝ) := by exact_mod_cast Nat.lt_of_lt_of_le Nat.zero_lt_one hupos
  have h1 : (1 : ℝ) ≤ (c.size : ℝ) / (u : ℝ) := by
    rw [le_div_iff₀ h0, one_mul]
    exact_mod_cast hu
  have hlog : 0 ≤ Real.log ((c.size : ℝ) / (u : ℝ)) := Real.log_nonneg h1
  positivity

/-- Witness for the amended C8 at a fresh size-8 linear counter. -/
theorem linear_estimate_nonneg_witness :
    1 ≤ (LinearCounter.new 8).size ∧ 8 ∣ (LinearCounter.new 8).size ∧
    (LinearCounter.new 8).bit_array.length = ((LinearCounter.new 8).size + 7) / 8 ∧
    0 ≤ LinearCounter.estimate (LinearCounter.new 8) :=
  ⟨by decide, by decide, by decide,
    linear_estimate_nonneg_of_byte_aligned (LinearCounter.new 8)
      (by decide) (by decide) (by decide)⟩

/-- C10 counterexample: a probabilistic-bit counter created with `size = 0`
does not degenerate to indexing the only slot — its `add` panics (`size - 1`
underflows with debug assertions; the wrapped index is out of bounds of the
empty bitset in release), modelled as `none`. -/
theorem fm_add_size_zero_counterexample :
    FMCounter.add_hashed (FMCounter.new 0) 5 = none := rfl

/-- C10 amended: `add` and `estimate` are total on every sketch created
with `size ≥ 1` (for the HyperLogLog counter, on every sketch whose
register array has its construction length `2^size`); at `size = 0` the
probabilistic-bit counter's `add` panics rather than indexing a slot, and
the linear counter's `add` panics on `hash % 0`. -/
theorem counters_total_of_size_pos (f : FMCounter) (l : LinearCounter)
    (h : HLLCounter) (hash : ℕ)
    (hf : 1 ≤ f.size) (hflen : f.bitset.length = (f.size + 7) / 8)
    (hl : 1 ≤ l.size) (hllen : l.bit_array.length = (l.size + 7) / 8)
    (hhlen : h.registers.length = 2 ^ h.size) :
    (∃ f', FMCounter.add_hashed f hash = some f') ∧
    (∃ e, FMCounter.estimate f = some e) ∧
    (∃ l', LinearCounter.add_hashed l hash = some l') ∧
    (∃ h', HLLCounter.add_hash h hash = some h') := by
  have hdiv : ∀ i n : ℕ, i < n + 1 → i / 8 < (n + 1 + 7) / 8 := by
    intro i n hi
    omega
  obtain ⟨fsize, fbits⟩ := f
  obtain ⟨lsize, lbits⟩ := l
  simp only at hf hflen hl hllen
  obtain ⟨s, rfl⟩ : ∃ s, fsize = s + 1 := ⟨fsize - 1, by omega⟩
  obtain ⟨t, rfl⟩ : ∃ t, lsize = t + 1 := ⟨lsize - 1, by omega⟩
  refine ⟨?_, ⟨_, rfl⟩, ?_, ?_⟩
  · have hb : min (trailingZeros64 hash) s / 8 < fbits.length := by
      rw [hflen]
      exact hdiv _ _ (by omega)
    simp only [FMCounter.add_hashed]
    rw [dif_pos hb]
    exact ⟨_, rfl⟩
  · have hb : hash % (t + 1) / 8 < lbits.length := by
      rw [hllen]
      exact hdiv _ _ (Nat.mod_lt _ (by omega))
    simp only [LinearCounter.add_hashed]
    rw [dif_pos hb]
    exact ⟨_, rfl⟩
  · unfold HLLCounter.add_hash
    have hmod : hash &&& (2 ^ h.size - 1) = hash % 2 ^ h.size :=
      Nat.and_pow_two_sub_one_eq_mod hash h.size
    have hb : hash &&& (2 ^ h.size - 1) < h.registers.length := by
      rw [hhlen, hmod]
      exact Nat.mod_lt _ (Nat.pos_pow_of_pos _ (by norm_num))
    rw [dif_pos hb]
    exact ⟨_, rfl⟩

/-- Witness for the amended C10 at size-1 sketches and hash 5. -/
theorem counters_total_witness :
    1 ≤ (FMCounter.new 1).size ∧
    (FMCounter.new 1).bitset.length = ((FMCounter.new 1).size + 7) / 8 ∧
    1 ≤ (LinearCounter.new 1).size ∧
    (LinearCounter.new 1).bit_array.length = ((LinearCounter.new 1).size + 7) / 8 ∧
    (HLLCounter.new 1).registers.length = 2 ^ (HLLCounter.new 1).size ∧
    ((∃ f', FMCounter.add_hashed (FMCounter.new 1) 5 = some f') ∧
      (∃ e, FMCounter.estimate (FMCounter.new 1) = some e) ∧
      (∃ l', LinearCounter.add_hashed (LinearCounter.new 1) 5 = some l') ∧
      (∃ h', HLLCounter.add_hash (HLLCounter.new 1) 5 = some h')) :=
  ⟨by decide, by decide, by decide, by decide, by decide,
    counters_total_of_size_pos (FMCounter.new 1) (LinearCounter.new 1)
      (HLLCounter.new 1) 5 (by decide) (by decide) (by decide) (by decide)
      (by decide)⟩

/-- C7 counterexample: a reachable HyperLogLog sketch (precision 4,
registers `[0,1,…,1]`, built by fifteen adds of hashes 17..31 starting
from a fresh sketch) whose estimate DROPS from `16·ln 16 ≈ 44.4` to
`0.673·256/8 = 21.536` when hash 16 fills the last zero register and the
small-range correction stops applying: adding an item can decrease the
HyperLogLog estimate. -/
theorem hll_estimate_not_monotone :
    (List.range 15).foldl
        (fun acc i => acc.bind (fun s => HLLCounter.add_hash s (17 + i)))
        (some (HLLCounter.new 4))
      = some (HLLCounter.mk 4 [0, 1, 1, 1, 1, 1, 1, 1, 1, 1, 1, 1, 1, 1, 1, 1]) ∧
    HLLCounter.add_hash
        (HLLCounter.mk 4 [0, 1, 1, 1, 1, 1, 1, 1, 1, 1, 1, 1, 1, 1, 1, 1]) 16
      = some (HLLCounter.mk 4 [1, 1, 1, 1, 1, 1, 1, 1, 1, 1, 1, 1, 1, 1, 1, 1]) ∧
    HLLCounter.estimate (HLLCounter.mk 4 [1, 1, 1, 1, 1, 1, 1, 1, 1, 1, 1, 1, 1, 1, 1, 1])
      < HLLCounter.estimate (HLLCounter.mk 4 [0, 1, 1, 1, 1, 1, 1, 1, 1, 1, 1, 1, 1, 1, 1, 1]) := by
  refine ⟨by decide, by decide, ?_⟩
  have hA : HLLCounter.estimate
      (HLLCounter.mk 4 [0, 1, 1, 1, 1, 1, 1, 1, 1, 1, 1, 1, 1, 1, 1, 1])
      = 16 * Real.log 16 := by
    simp only [HLLCounter.estimate]
    norm_num
  have hB : HLLCounter.estimate
      (HLLCounter.mk 4 [1, 1, 1, 1, 1, 1, 1, 1, 1, 1, 1, 1, 1, 1, 1, 1])
      = 0.673 * 16 * 16 / 8 := by
    simp only [HLLCounter.estimate]
    norm_num
  rw [hA, hB]
  have h2 : (0.6931471803 : ℝ) < Real.log 2 := Real.log_two_gt_d9
  have h16 : Real.log 16 = 4 * Real.log 2 := by
    rw [show (16 : ℝ) = 2 ^ (4 : ℕ) by norm_num, Real.log_pow]
    norm_num
  rw [h16]
  nlinarith

/-- OR-ing never lowers the low bit. -/
theorem mod_two_le_lor_mod_two (b m : ℕ) : b % 2 ≤ (b ||| m) % 2 := by
  rcases Nat.mod_two_eq_zero_or_one b with h | h
  · simp [h]
  · have hb := Nat.testBit_lor b m 0
    simp only [Nat.testBit_zero, h] at hb
    simp only [decide_True, Bool.true_or] at hb
    have := of_decide_eq_true hb
    omega

/-- `|||` commutes with halving. -/
theorem lor_div_two (b m : ℕ) : (b ||| m) / 2 = (b / 2) ||| (m / 2) := by
  refine Nat.eq_of_testBit_eq fun i => ?_
  rw [Nat.testBit_lor, ← Nat.testBit_succ, ← Nat.testBit_succ, ← Nat.testBit_succ,
    Nat.testBit_lor]

/-- Popcount is monotone under OR. -/
theorem countOnesAux_le_lor : ∀ (f b m : ℕ), countOnesAux f b ≤ countOnesAux f (b ||| m)
  | 0, _, _ => le_refl _
  | f + 1, b, m => by
    simp only [countOnesAux, lor_div_two]
    exact Nat.add_le_add (mod_two_le_lor_mod_two b m) (countOnesAux_le_lor f (b / 2) (m / 2))

/-- `count_zeros` is antitone under OR. -/
theorem countZeros8_lor_le (b m : ℕ) : countZeros8 (b ||| m) ≤ countZeros8 b :=
  Nat.sub_le_sub_left (countOnesAux_le_lor 8 b m) 8

/-- Trailing-ones count is monotone under OR. -/
theorem trailingOnesAux_le_lor : ∀ (f b m : ℕ),
    trailingOnesAux f b ≤ trailingOnesAux f (b ||| m)
  | 0, _, _ => le_refl _
  | f + 1, b, m => by
    simp only [trailingOnesAux]
    rcases Nat.mod_two_eq_zero_or_one b with h | h
    · simp [h]
    · have h2 : (b ||| m) % 2 = 1 := by
        have := mod_two_le_lor_mod_two b m
        omega
      simp only [h, h2, if_true, lor_div_two]
      exact Nat.succ_le_succ (trailingOnesAux_le_lor f (b / 2) (m / 2))

/-- Updating one slot with a pointwise-smaller `g`-image does not increase
the mapped sum. -/
theorem sum_map_set_le (g : ℕ → ℕ) :
    ∀ (l : List ℕ) (p v : ℕ), g v ≤ g (l.getD p 0) →
      ((l.set p v).map g).sum ≤ (l.map g).sum
  | [], _, _, _ => le_refl _
  | x :: t, 0, v, hv => by
    simp only [List.set, List.map_cons, List.sum_cons, List.getD_cons_zero] at hv ⊢
    exact Nat.add_le_add_right hv _
  | x :: t, p + 1, v, hv => by
    simp only [List.set, List.map_cons, List.sum_cons, List.getD_cons_succ] at hv ⊢
    exact Nat.add_le_add_left (sum_map_set_le g t p v hv) _

/-- The linear-counting formula is antitone in the unset-bit count. -/
theorem nat_mul_log_div_mono (n u u' : ℕ) (hn : 1 ≤ n) (hu' : 1 ≤ u') (h : u' ≤ u) :
    (n : ℝ) * Real.log ((n : ℝ) / (u : ℕ)) ≤ (n : ℝ) * Real.log ((n : ℝ) / (u' : ℕ)) := by
  have hn' : (0 : ℝ) < (n : ℝ) := by exact_mod_cast hn
  have hu'' : (0 : ℝ) < ((u' : ℕ) : ℝ) := by exact_mod_cast hu'
  have hu0 : (0 : ℝ) < ((u : ℕ) : ℝ) := by
    have : 1 ≤ u := hu'.trans h
    exact_mod_cast this
  have hdiv : (n : ℝ) / (u : ℕ) ≤ (n : ℝ) / (u' : ℕ) :=
    div_le_div_of_nonneg_left hn'.le hu'' (by exact_mod_cast h)
  have hpos : (0 : ℝ) < (n : ℝ) / (u : ℕ) := div_pos hn' hu0
  exact mul_le_mul_of_nonneg_left (Real.log_le_log hpos hdiv) hn'.le

/-- Adding to a linear counter never decreases its estimate. -/
theorem linear_estimate_le_of_add (c c' : LinearCounter) (hash : ℕ)
    (hadd : LinearCounter.add_hashed c hash = some c') :
    LinearCounter.estimate c ≤ LinearCounter.estimate c' := by
  obtain ⟨csize, carr⟩ := c
  cases csize with
  | zero => simp [LinearCounter.add_hashed] at hadd
  | succ s =>
    simp only [LinearCounter.add_hashed] at hadd
    split at hadd
    case isTrue hlt =>
      injection hadd with h
      subst h
      have hget : carr.getD (hash % (s + 1) / 8) 0 = carr.get ⟨hash % (s + 1) / 8, hlt⟩ := by
        rw [List.getD_eq_getElem _ _ hlt]
        simp [List.get_eq_getElem]
      have hsum : (((carr.set (hash % (s + 1) / 8)
            (carr.get ⟨hash % (s + 1) / 8, hlt⟩ ||| 2 ^ (hash % (s + 1) % 8))).map
              countZeros8).sum)
          ≤ ((carr.map countZeros8).sum) := by
        apply sum_map_set_le
        rw [hget]
        exact countZeros8_lor_le _ _
      have hu : max 1 (((carr.set (hash % (s + 1) / 8)
              (carr.get ⟨hash % (s + 1) / 8, hlt⟩ ||| 2 ^ (hash % (s + 1) % 8))).map
                countZeros8).sum)
          ≤ max 1 ((carr.map countZeros8).sum) :=
        max_le_max (le_refl 1) hsum
      exact nat_mul_log_div_mono (s + 1) _ _ (by omega) (le_max_left _ _) hu
    case isFalse hge => simp at hadd

/-- OR-ing any single bit below 8 into a full byte keeps it full. -/
theorem lor_255 : ∀ e < 8, 255 ||| 2 ^ e = 255 := by decide

set_option maxRecDepth 4096 in
/-- A non-full byte has at most 7 trailing ones. -/
theorem trailingOnes8_le_seven : ∀ b < 256, b ≠ 255 → trailingOnes8 b ≤ 7 := by decide

/-- The scan result is at least `8 * idx`. -/
theorem firstUnsetAux_ge : ∀ (l : List ℕ) (idx q : ℕ),
    FMCounter.firstUnsetAux l idx = some q → idx * 8 ≤ q
  | [], idx, q, h => by simp [FMCounter.firstUnsetAux] at h
  | b :: rest, idx, q, h => by
    simp only [FMCounter.firstUnsetAux] at h
    split at h
    · have := firstUnsetAux_ge rest (idx + 1) q h
      omega
    · injection h with h
      omega

/-- A `none` scan means every byte is full. -/
theorem firstUnsetAux_none_all255 : ∀ (l : List ℕ) (idx : ℕ),
    FMCounter.firstUnsetAux l idx = none → ∀ b ∈ l, b = 255
  | [], _, _, b, hb => by simp at hb
  | x :: rest, idx, h, b, hb => by
    simp only [FMCounter.firstUnsetAux] at h
    split at h
    case isTrue hx =>
      rcases List.mem_cons.mp hb with rfl | hmem
      · exact hx
      · exact firstUnsetAux_none_all255 rest (idx + 1) h b hmem
    case isFalse hx => simp at h

/-- Effect of OR-ing one bit into one byte on the first-unset-bit scan:
the found position never decreases, and if the update fills the array the
original position was below `8 *` the array length. -/
theorem firstUnsetAux_set_lor (e : ℕ) (he : e < 8) :
    ∀ (l : List ℕ) (p idx : ℕ), (∀ b ∈ l, b < 256) →
      (∀ q q', FMCounter.firstUnsetAux l idx = some q →
        FMCounter.firstUnsetAux (l.set p (l.getD p 0 ||| 2 ^ e)) idx = some q' →
        q ≤ q') ∧
      (∀ q, FMCounter.firstUnsetAux l idx = some q →
        FMCounter.firstUnsetAux (l.set p (l.getD p 0 ||| 2 ^ e)) idx = none →
        q < (idx + l.length) * 8) ∧
      (FMCounter.firstUnsetAux l idx = none →
        FMCounter.firstUnsetAux (l.set p (l.getD p 0 ||| 2 ^ e)) idx = none)
  | [], p, idx, _ => by
    refine ⟨?_, ?_, ?_⟩ <;> intro q <;> simp [FMCounter.firstUnsetAux]
  | b :: rest, 0, idx, hbytes => by
    have hb256 : b < 256 := hbytes b (List.mem_cons_self _ _)
    simp only [List.getD_cons_zero, List.set_cons_zero]
    by_cases hb : b = 255
    · subst hb
      rw [lor_255 e he]
      simp only [FMCounter.firstUnsetAux, if_pos rfl]
      refine ⟨?_, ?_, ?_⟩
      · intro q q' h1 h2
        rw [h1] at h2
        injection h2 with h2
        omega
      · intro q h1 h2
        rw [h1] at h2
        exact absurd h2 (by simp)
      · exact fun h => h
    · by_cases hb' : b ||| 2 ^ e = 255
      · simp only [FMCounter.firstUnsetAux, if_neg hb, hb', if_pos rfl]
        have hto : trailingOnes8 b ≤ 7 := trailingOnes8_le_seven b hb256 hb
        refine ⟨?_, ?_, ?_⟩
        · intro q q' h1 h2
          injection h1 with h1
          have := firstUnsetAux_ge rest (idx + 1) q' h2
          omega
        · intro q h1 _
          injection h1 with h1
          simp only [List.length_cons]
          omega
        · intro h; exact absurd h (by simp)
      · simp only [FMCounter.firstUnsetAux, if_neg hb, if_neg hb']
        refine ⟨?_, ?_, ?_⟩
        · intro q q' h1 h2
          injection h1 with h1
          injection h2 with h2
          have : trailingOnes8 b ≤ trailingOnes8 (b ||| 2 ^ e) :=
            trailingOnesAux_le_lor 8 b (2 ^ e)
          omega
        · intro q h1 h2
          exact absurd h2 (by simp)
        · intro h; exact absurd h (by simp)
  | b :: rest, p + 1, idx, hbytes => by
    have hrest : ∀ x ∈ rest, x < 256 := fun x hx => hbytes x (List.mem_cons_of_mem _ hx)
    obtain ⟨ih1, ih2, ih3⟩ := firstUnsetAux_set_lor e he rest p (idx + 1) hrest
    simp only [List.getD_cons_succ, List.set_cons_succ]
    by_cases hb : b = 255
    · simp only [FMCounter.firstUnsetAux, if_pos hb]
      refine ⟨ih1, ?_, ih3⟩
      intro q h1 h2
      have := ih2 q h1 h2
      simp only [List.length_cons]
      omega
    · simp only [FMCounter.firstUnsetAux, if_neg hb]
      refine ⟨?_, ?_, ?_⟩
      · intro q q' h1 h2
        injection h1 with h1
        injection h2 with h2
        omega
      · intro q h1 h2
        exact absurd h2 (by simp)
      · intro h; exact absurd h (by simp)

/-- Every low bit of a full byte is set. -/
theorem testBit_255 : ∀ r < 8, Nat.testBit 255 r = true := by decide

/-- `getD` of an in-bounds index is a member. -/
theorem getD_mem_of_lt : ∀ (l : List ℕ) (n d : ℕ), n < l.length → l.getD n d ∈ l
  | [], _, _, h => by simp at h
  | x :: t, 0, d, _ => by simp [List.getD_cons_zero]
  | x :: t, n + 1, d, h => by
    simp only [List.getD_cons_succ]
    exact List.mem_cons_of_mem _ (getD_mem_of_lt t n d (by simpa using h))

/-- `get` agrees with `getD` in bounds. -/
theorem get_eq_getD : ∀ (l : List ℕ) (n : ℕ) (h : n < l.length),
    l.get ⟨n, h⟩ = l.getD n 0
  | x :: t, 0, _ => by simp [List.getD_cons_zero]
  | x :: t, n + 1, h => by
    simp only [List.getD_cons_succ]
    exact get_eq_getD t n (by simpa using h)

/-- `getD` after `set` at the written index. -/
theorem getD_set_self : ∀ (l : List ℕ) (p v : ℕ), p < l.length →
    (l.set p v).getD p 0 = v
  | [], _, _, h => by simp at h
  | x :: t, 0, v, _ => by simp
  | x :: t, p + 1, v, h => by
    simp only [List.set_cons_succ, List.getD_cons_succ]
    exact getD_set_self t p v (by simpa using h)

/-- `getD` after `set` at another index. -/
theorem getD_set_ne : ∀ (l : List ℕ) (p k v : ℕ), p ≠ k →
    (l.set p v).getD k 0 = l.getD k 0
  | [], _, _, _, _ => by simp
  | x :: t, 0, 0, v, h => absurd rfl h
  | x :: t, 0, k + 1, v, _ => by simp [List.set_cons_zero, List.getD_cons_succ]
  | x :: t, p + 1, 0, v, _ => by simp [List.set_cons_succ, List.getD_cons_zero]
  | x :: t, p + 1, k + 1, v, h => by
    simp only [List.set_cons_succ, List.getD_cons_succ]
    exact getD_set_ne t p k v (by omega)

/-- The FM estimate value is monotone in the first-unset-bit position. -/
theorem fm_value_mono (x y : ℕ) (h : x ≤ y) :
    (2 : ℝ) ^ x / 0.77351 ≤ (2 : ℝ) ^ y / 0.77351 := by
  have hp : (2 : ℝ) ^ x ≤ (2 : ℝ) ^ y := pow_le_pow_right one_le_two h
  have hφ : (0 : ℝ) < 0.77351 := by norm_num
  exact div_le_div_of_nonneg_right hp hφ.le

/-- Adding to a probabilistic-bit counter never decreases its estimate,
on states where no bit at or beyond `size` is set (true of every state
reachable from `new`). -/
theorem fm_estimate_le_of_add (c c' : FMCounter) (hash : ℕ)
    (hbytes : ∀ b ∈ c.bitset, b < 256)
    (hinv : ∀ j, c.size ≤ j → Nat.testBit (c.bitset.getD (j / 8) 0) (j % 8) = false)
    (hadd : FMCounter.add_hashed c hash = some c') :
    (FMCounter.estimate c).getD 0 ≤ (FMCounter.estimate c').getD 0 := by
  obtain ⟨csize, bits⟩ := c
  cases csize with
  | zero => simp [FMCounter.add_hashed] at hadd
  | succ s =>
    simp only [FMCounter.add_hashed] at hadd
    split at hadd
    case isTrue hlt =>
      injection hadd with h
      subst h
      simp only at hbytes hinv
      have hile : min (trailingZeros64 hash) s ≤ s := min_le_right _ _
      revert hlt
      generalize hgen : min (trailingZeros64 hash) s = i
      intro hlt
      rw [hgen] at hile
      rw [get_eq_getD bits (i / 8) hlt]
      obtain ⟨m1, m2, m3⟩ :=
        firstUnsetAux_set_lor (i % 8) (Nat.mod_lt _ (by norm_num)) bits (i / 8) 0 hbytes
      simp only [FMCounter.estimate, Option.getD_some]
      rcases h1 : FMCounter.firstUnsetAux bits 0 with _ | q
      · rw [m3 h1]
      · rcases h2 : FMCounter.firstUnsetAux
            (bits.set (i / 8) (bits.getD (i / 8) 0 ||| 2 ^ (i % 8))) 0 with _ | q'
        · have hq := m2 q h1 h2
          simp only [Nat.zero_add] at hq
          have hlen8 : 8 * bits.length ≤ s + 1 := by
            by_contra hcon
            push_neg at hcon
            have hall := firstUnsetAux_none_all255 _ 0 h2
            have hjlen : (s + 1) / 8 < bits.length := by omega
            have hjlen' : (s + 1) / 8
                < (bits.set (i / 8) (bits.getD (i / 8) 0 ||| 2 ^ (i % 8))).length := by
              rwa [List.length_set]
            have h255 : (bits.set (i / 8) (bits.getD (i / 8) 0 ||| 2 ^ (i % 8))).getD
                ((s + 1) / 8) 0 = 255 :=
              hall _ (getD_mem_of_lt _ _ _ hjlen')
            have hf : Nat.testBit (bits.getD ((s + 1) / 8) 0) ((s + 1) % 8) = false :=
              hinv (s + 1) (le_refl _)
            by_cases hpe : i / 8 = (s + 1) / 8
            · rw [← hpe, getD_set_self bits (i / 8) _ hlt] at h255
              have ht : Nat.testBit (bits.getD (i / 8) 0 ||| 2 ^ (i % 8)) ((s + 1) % 8)
                  = true := by
                rw [h255]
                exact testBit_255 _ (Nat.mod_lt _ (by norm_num))
              rw [Nat.testBit_lor, hpe, hf, Bool.false_or, Nat.testBit_two_pow] at ht
              have he : i % 8 = (s + 1) % 8 := of_decide_eq_true ht
              omega
            · rw [getD_set_ne bits (i / 8) ((s + 1) / 8) _ hpe] at h255
              rw [h255] at hf
              rw [testBit_255 ((s + 1) % 8) (Nat.mod_lt _ (by norm_num))] at hf
              exact Bool.noConfusion hf
          exact fm_value_mono q s (by omega)
        · exact fm_value_mono q q' (m1 q q' h1 h2)
    case isFalse hge => simp at hadd

/-- C7 amended: adding an item never decreases the estimate for the exact,
linear-probabilistic, and probabilistic-bit counters (the latter on states
where no bit at or beyond `size` is set, as `new` creates and `add`
preserves); the HyperLogLog estimate, however, is NOT monotone — see the
counterexample where filling the last zero register disables the
small-range correction. -/
theorem counters_estimate_monotone :
    (∀ (c : HashCounter) (hash : ℕ),
        HashCounter.estimate c ≤ HashCounter.estimate (HashCounter.add_hashed c hash)) ∧
    (∀ (c c' : LinearCounter) (hash : ℕ),
        LinearCounter.add_hashed c hash = some c' →
        LinearCounter.estimate c ≤ LinearCounter.estimate c') ∧
    (∀ (c c' : FMCounter) (hash : ℕ),
        (∀ b ∈ c.bitset, b < 256) →
        (∀ j, c.size ≤ j → Nat.testBit (c.bitset.getD (j / 8) 0) (j % 8) = false) →
        FMCounter.add_hashed c hash = some c' →
        (FMCounter.estimate c).getD 0 ≤ (FMCounter.estimate c').getD 0) := by
  refine ⟨?_, ?_, ?_⟩
  · intro c hash
    unfold HashCounter.estimate HashCounter.add_hashed
    exact_mod_cast Finset.card_le_card (Finset.subset_insert _ _)
  · exact fun c c' hash hadd => linear_estimate_le_of_add c c' hash hadd
  · exact fun c c' hash hb hi hadd => fm_estimate_le_of_add c c' hash hb hi hadd

/-- Witness for the amended C7 at concrete counters and hashes. -/
theorem counters_estimate_monotone_witness :
    HashCounter.estimate (HashCounter.new 0)
        ≤ HashCounter.estimate (HashCounter.add_hashed (HashCounter.new 0) 7) ∧
    (LinearCounter.add_hashed (LinearCounter.new 8) 3
        = some (LinearCounter.mk 8 [8]) ∧
      LinearCounter.estimate (LinearCounter.new 8)
        ≤ LinearCounter.estimate (LinearCounter.mk 8 [8])) ∧
    ((∀ b ∈ (FMCounter.new 8).bitset, b < 256) ∧
      FMCounter.add_hashed (FMCounter.new 8) 3 = some (FMCounter.mk 8 [1]) ∧
      (FMCounter.estimate (FMCounter.new 8)).getD 0
        ≤ (FMCounter.estimate (FMCounter.mk 8 [1])).getD 0) :=
  ⟨counters_estimate_monotone.1 (HashCounter.new 0) 7,
    ⟨by decide,
      counters_estimate_monotone.2.1 (LinearCounter.new 8) (LinearCounter.mk 8 [8]) 3
        (by decide)⟩,
    ⟨by decide, by decide,
      counters_estimate_monotone.2.2 (FMCounter.new 8) (FMCounter.mk 8 [1]) 3
        (by decide)
        (by
          intro j hj
          have h0 : ((FMCounter.new 8).bitset).getD (j / 8) 0 = 0 := by
            rcases hk : j / 8 with _ | k <;> simp [FMCounter.new, List.getD]
          rw [h0]
          exact Nat.zero_testBit _)
        (by decide)⟩⟩

/-- The `ENCODING` table of src/parallel_counting.rs: A/C/G/T (either
case) map to 0..3, every other byte to `0xFF`. -/
def ENCODING (b : ℕ) : ℕ :=
  if b = 65 then 0
  else if b = 67 then 1
  else if b = 71 then 2
  else if b = 84 then 3
  else if b = 97 then 0
  else if b = 99 then 1
  else if b = 103 then 2
  else if b = 116 then 3
  else 255

/-- `K_MER_LENGTH`. -/
def K_MER_LENGTH : ℕ := 31

/-- `K_MER_MASK = (1 << 2*31) - 1`. -/
def K_MER_MASK : ℕ := 2 ^ (2 * K_MER_LENGTH) - 1

/-- One step of the per-record byte scan in `run_parallel_fasta_analysis`:
state is `(kmer_u64, valid_len, kmers_seen)`; a non-ACGT byte resets the
packed window and the run length; a k-mer is counted once the run reaches
`K_MER_LENGTH`.  (The HLL `add_u64` of the canonical k-mer mutates only
the sketch, which is orthogonal to these three fields.) -/
def scanStep (st : ℕ × ℕ × ℕ) (byte : ℕ) : ℕ × ℕ × ℕ :=
  let code := ENCODING byte
  if code = 255 then (0, 0, st.2.2)
  else
    let kmer' := ((st.1 <<< 2) &&& K_MER_MASK) ||| code
    let valid' := st.2.1 + 1
    if K_MER_LENGTH ≤ valid' then (kmer', valid', st.2.2 + 1)
    else (kmer', valid', st.2.2)

/-- The whole per-record scan, started from `(0, 0, 0)`. -/
def scanRecord (seq : List ℕ) : ℕ × ℕ × ℕ := seq.foldl scanStep (0, 0, 0)

/-- A byte is a valid base iff the encoding is not the 0xFF sentinel. -/
def validByte (b : ℕ) : Bool := ENCODING b != 255

/-- Length of the longest all-valid suffix. -/
def validSuffixLen (seq : List ℕ) : ℕ := (seq.reverse.takeWhile validByte).length

/-- The number of length-`k` windows consisting entirely of valid bases. -/
def countValidWindows (k : ℕ) (seq : List ℕ) : ℕ :=
  (List.range (seq.length + 1 - k)).countP
    (fun i => ((seq.drop i).take k).all validByte)

/-- A prefix of length `n` is all-`p` iff `takeWhile p` reaches `n`. -/
theorem take_all_iff_le_takeWhile (p : ℕ → Bool) :
    ∀ (l : List ℕ) (n : ℕ), n ≤ l.length →
      ((l.take n).all p = true ↔ n ≤ (l.takeWhile p).length)
  | _, 0, _ => by simp
  | [], n + 1, h => by simp at h
  | x :: xs, n + 1, h => by
    simp only [List.take_succ_cons, List.all_cons, List.takeWhile]
    by_cases hx : p x
    · simp only [hx, Bool.true_and, List.length_cons]
      rw [take_all_iff_le_takeWhile p xs n (by simpa using h)]
      omega
    · simp only [hx, Bool.false_and]
      simp

/-- The valid suffix is no longer than the sequence. -/
theorem validSuffixLen_le (seq : List ℕ) : validSuffixLen seq ≤ seq.length := by
  unfold validSuffixLen
  calc (seq.reverse.takeWhile validByte).length
      ≤ seq.reverse.length := (List.takeWhile_prefix _).length_le
    _ = seq.length := by simp

/-- Effect of appending one byte on the valid-suffix length. -/
theorem validSuffixLen_append (seq : List ℕ) (b : ℕ) :
    validSuffixLen (seq ++ [b])
      = if validByte b then validSuffixLen seq + 1 else 0 := by
  unfold validSuffixLen
  rw [List.reverse_append]
  simp only [List.reverse_cons, List.reverse_nil, List.nil_append, List.singleton_append,
    List.takeWhile]
  by_cases hb : validByte b
  · simp [hb]
  · simp [hb]

/-- The window ending at the last byte is all-valid iff the valid suffix
covers it. -/
theorem window_end_iff_suffix (t : List ℕ) (k : ℕ) (hk : k ≤ t.length) :
    (((t.drop (t.length - k)).take k).all validByte = true
      ↔ k ≤ validSuffixLen t) := by
  have hlen : (t.drop (t.length - k)).length = k := by
    rw [List.length_drop]; omega
  rw [List.take_of_length_le (le_of_eq hlen)]
  have hrev : t.reverse.take k = (t.drop (t.length - k)).reverse := by
    rw [List.take_reverse]
  have hall : (t.drop (t.length - k)).all validByte = (t.reverse.take k).all validByte := by
    rw [hrev, List.all_reverse]
  rw [hall]
  exact take_all_iff_le_takeWhile validByte t.reverse k (by simpa using hk)

/-- Effect of appending one byte on the window count. -/
theorem countValidWindows_append (seq : List ℕ) (b : ℕ) :
    countValidWindows 31 (seq ++ [b])
      = countValidWindows 31 seq
        + (if 31 ≤ validSuffixLen (seq ++ [b]) then 1 else 0) := by
  unfold countValidWindows
  rw [List.length_append, List.length_singleton]
  by_cases hL : 31 ≤ seq.length + 1
  · have hr : seq.length + 1 + 1 - 31 = (seq.length + 1 - 31) + 1 := by omega
    rw [hr, List.range_succ, List.countP_append]
    congr 1
    · apply List.countP_congr
      intro i hi
      rw [List.mem_range] at hi
      have hik : i + 31 ≤ seq.length := by omega
      have hwin : ((seq ++ [b]).drop i).take 31 = (seq.drop i).take 31 := by
        rw [List.drop_append_of_le_length (by omega),
          List.take_append_of_le_length (by rw [List.length_drop]; omega)]
      rw [hwin]
    · have hlen' : (seq ++ [b]).length = seq.length + 1 := by
        rw [List.length_append, List.length_singleton]
      have hiff := window_end_iff_suffix (seq ++ [b]) 31 (by omega)
      rw [hlen'] at hiff
      have hidx2 : seq.length + 1 - 31 = seq.length - 30 := by omega
      rw [hidx2] at hiff ⊢
      simp only [List.countP_cons, List.countP_nil, Nat.zero_add]
      by_cases hsfx : 31 ≤ validSuffixLen (seq ++ [b])
      · rw [if_pos hsfx]
        have ht := hiff.mpr hsfx
        simp [ht]
      · rw [if_neg hsfx]
        have ht : ¬ (((seq ++ [b]).drop (seq.length - 30)).take 31).all validByte
            = true := fun h => hsfx (hiff.mp h)
        simp [ht]
  · have h1 : seq.length + 1 - 31 = 0 := by omega
    have h2 : seq.length + 1 + 1 - 31 = 0 := by omega
    have h3 : ¬ 31 ≤ validSuffixLen (seq ++ [b]) := by
      have := validSuffixLen_le (seq ++ [b])
      rw [List.length_append, List.length_singleton] at this
      omega
    rw [h1, h2, if_neg h3]
    simp

/-- C6: in the parallel pipeline's per-record scan, any non-ACGT byte
resets the run and the packed window, a reset k-mer is never emitted, and
a k-mer is counted exactly when the run of consecutive valid bases reaches
`K_MER_LENGTH`; hence `kmers_seen` equals the number of length-31 windows
consisting entirely of valid bases (and the running `valid_len` is the
length of the longest all-valid suffix of the bytes scanned so far). -/
theorem parallel_scan_counts_valid_windows (seq : List ℕ) :
    (scanRecord seq).2.1 = validSuffixLen seq ∧
    (scanRecord seq).2.2 = countValidWindows K_MER_LENGTH seq := by
  induction seq using List.reverseRecOn with
  | nil => exact ⟨rfl, rfl⟩
  | append_singleton seq b ih =>
    obtain ⟨ih1, ih2⟩ := ih
    unfold scanRecord at ih1 ih2 ⊢
    simp only [K_MER_LENGTH] at ih2 ⊢
    rw [List.foldl_append, List.foldl_cons, List.foldl_nil]
    rw [validSuffixLen_append, countValidWindows_append, validSuffixLen_append]
    by_cases hb : validByte b
    · have hcode : ¬ ENCODING b = 255 := by
        simpa [validByte, bne_iff_ne] using hb
      simp only [scanStep, K_MER_LENGTH]
      rw [if_neg hcode, if_pos hb, ih1, ih2]
      by_cases h31 : 31 ≤ validSuffixLen seq + 1
      · rw [if_pos h31, if_pos h31]
        exact ⟨rfl, rfl⟩
      · rw [if_neg h31, if_neg h31]
        exact ⟨rfl, by simp⟩
    · have hcode : ENCODING b = 255 := by
        simpa [validByte, bne_iff_ne] using hb
      simp only [scanStep, K_MER_LENGTH]
      rw [if_pos hcode, if_neg hb]
      have h0 : ¬ (31 : ℕ) ≤ 0 := by omega
      rw [if_neg h0]
      exact ⟨rfl, by rw [Nat.add_zero]; exact ih2⟩

/-- The per-base complement map of `reverse_complement` (src/fasta.rs):
A↔T, C↔G, case preserved, unrecognized bytes pass through. -/
def complementByte (b : ℕ) : ℕ :=
  if b = 65 then 84
  else if b = 84 then 65
  else if b = 67 then 71
  else if b = 71 then 67
  else if b = 97 then 116
  else if b = 116 then 97
  else if b = 99 then 103
  else if b = 103 then 99
  else b

/-- `reverse_complement`: iterate in reverse, mapping each base. -/
def reverse_complement (seq : List ℕ) : List ℕ :=
  seq.reverse.map complementByte

/-- Rust slice lexicographic `<=` on byte slices. -/
def bytesLE : List ℕ → List ℕ → Bool
  | [], _ => true
  | _ :: _, [] => false
  | a :: as_, b :: bs => if a < b then true else if b < a then false else bytesLE as_ bs

/-- `get_canonical` (src/fasta.rs): the lexicographically smaller of the
k-mer and its reverse complement (the k-mer itself on ties). -/
def get_canonical (kmer : List ℕ) : List ℕ :=
  let rc := reverse_complement kmer
  if bytesLE kmer rc then kmer else rc

/-- `u64::reverse_bits`, fuel-based: bit `i` of the input becomes bit
`w - 1 - i` of the output (on the low `w` bits). -/
def reverseBitsAux : ℕ → ℕ → ℕ
  | 0, _ => 0
  | w + 1, x => reverseBitsAux w (x / 2) + x % 2 * 2 ^ w

/-- The bit transform inside `get_canonical_u64` (src/parallel_counting.rs):
reverse all 64 bits, shift right by `64 - 62` to realign, swap adjacent
bits to restore the 2-bit lanes, complement within the 62 active bits. -/
def rcTransform (kmer : ℕ) : ℕ :=
  let r1 := reverseBitsAux 64 kmer
  let r2 := r1 >>> (64 - 2 * K_MER_LENGTH)
  let r3 := ((r2 >>> 1) &&& 0x5555555555555555) ||| ((r2 &&& 0x5555555555555555) <<< 1)
  r3 ^^^ (2 ^ (2 * K_MER_LENGTH) - 1)

/-- `get_canonical_u64`: the numeric minimum of the packed k-mer and its
transformed (reverse-complement) form. -/
def get_canonical_u64 (kmer : ℕ) : ℕ :=
  if kmer < rcTransform kmer then kmer else rcTransform kmer

/-- Packing a base sequence into the 2-bit-per-base integer, first base in
the highest lane (as the pipeline's rolling `(kmer << 2) | code` builds
it). -/
def packKmer (s : List ℕ) : ℕ :=
  s.foldl (fun acc b => acc * 4 + ENCODING b) 0

/-- An uppercase A/C/G/T byte. -/
def isACGT (b : ℕ) : Prop := b = 65 ∨ b = 67 ∨ b = 71 ∨ b = 84

/-- ACGT codes are 2-bit values. -/
theorem code_lt_four (b : ℕ) (hb : isACGT b) : ENCODING b < 4 := by
  rcases hb with rfl | rfl | rfl | rfl <;> decide

/-- The complement of an uppercase base is an uppercase base. -/
theorem compl_isACGT (b : ℕ) (hb : isACGT b) : isACGT (complementByte b) := by
  rcases hb with rfl | rfl | rfl | rfl <;> simp [complementByte, isACGT]

/-- Complementing a base complements its 2-bit code. -/
theorem code_compl (b : ℕ) (hb : isACGT b) :
    ENCODING (complementByte b) = 3 - ENCODING b := by
  rcases hb with rfl | rfl | rfl | rfl <;> decide

/-- On uppercase bases, byte order and code order agree. -/
theorem byte_lt_iff_code_lt (a b : ℕ) (ha : isACGT a) (hb : isACGT b) :
    (a < b ↔ ENCODING a < ENCODING b) := by
  rcases ha with rfl | rfl | rfl | rfl <;> rcases hb with rfl | rfl | rfl | rfl <;>
    simp [ENCODING]

/-- Complementing a 2-bit code flips both bits. -/
theorem testBit_three_sub : ∀ c < 4, ∀ r < 2,
    Nat.testBit (3 - c) r = ! Nat.testBit c r := by decide

/-- `foldl` accumulator form of `packKmer`. -/
theorem packKmer_foldl_acc : ∀ (s : List ℕ) (a : ℕ),
    s.foldl (fun acc b => acc * 4 + ENCODING b) a = a * 4 ^ s.length + packKmer s
  | [], a => by simp [packKmer]
  | b :: t, a => by
    simp only [List.foldl_cons, List.length_cons]
    rw [packKmer_foldl_acc t (a * 4 + ENCODING b)]
    have : packKmer (b :: t) = ENCODING b * 4 ^ t.length + packKmer t := by
      unfold packKmer
      simp only [List.foldl_cons, List.length_cons]
      rw [packKmer_foldl_acc t (0 * 4 + ENCODING b)]
      unfold packKmer
      ring
    rw [this]
    ring

/-- Unfolding one base of the packing. -/
theorem packKmer_cons (b : ℕ) (t : List ℕ) :
    packKmer (b :: t) = ENCODING b * 4 ^ t.length + packKmer t := by
  unfold packKmer
  simp only [List.foldl_cons]
  rw [packKmer_foldl_acc t (0 * 4 + ENCODING b)]
  unfold packKmer
  ring

/-- The packed value fits in `2 bits/base`. -/
theorem packKmer_lt : ∀ (s : List ℕ), (∀ b ∈ s, isACGT b) →
    packKmer s < 4 ^ s.length
  | [], _ => by simp [packKmer]
  | b :: t, hs => by
    rw [packKmer_cons, List.length_cons]
    have hb : ENCODING b < 4 := code_lt_four b (hs b (List.mem_cons_self _ _))
    have ht : packKmer t < 4 ^ t.length :=
      packKmer_lt t (fun x hx => hs x (List.mem_cons_of_mem _ hx))
    calc ENCODING b * 4 ^ t.length + packKmer t
        < ENCODING b * 4 ^ t.length + 4 ^ t.length := by omega
      _ = (ENCODING b + 1) * 4 ^ t.length := by ring
      _ ≤ 4 * 4 ^ t.length := by
          have : ENCODING b + 1 ≤ 4 := by omega
          exact Nat.mul_le_mul_right _ this
      _ = 4 ^ (t.length + 1) := by ring

/-- Bit `j` of the packed value is bit `j % 2` of the code of the base in
lane `j / 2` (lane 0 being the LAST base). -/
theorem packKmer_testBit : ∀ (s : List ℕ), (∀ b ∈ s, isACGT b) → ∀ j,
    Nat.testBit (packKmer s) j
      = (decide (j < 2 * s.length)
          && Nat.testBit (ENCODING (s.getD (s.length - 1 - j / 2) 0)) (j % 2))
  | [], _, j => by simp [packKmer]
  | b :: t, hs, j => by
    have hb : ENCODING b < 4 := code_lt_four b (hs b (List.mem_cons_self _ _))
    have ht : ∀ x ∈ t, isACGT x := fun x hx => hs x (List.mem_cons_of_mem _ hx)
    have htlt : packKmer t < 2 ^ (2 * t.length) := by
      have := packKmer_lt t ht
      rwa [show (4 : ℕ) ^ t.length = 2 ^ (2 * t.length) by
        rw [Nat.pow_mul]] at this
    have hshape : packKmer (b :: t) = 2 ^ (2 * t.length) * ENCODING b + packKmer t := by
      rw [packKmer_cons, show (4 : ℕ) ^ t.length = 2 ^ (2 * t.length) by rw [Nat.pow_mul]]
      ring
    rw [hshape, Nat.testBit_mul_pow_two_add _ htlt j]
    by_cases hj : j < 2 * t.length
    · rw [if_pos hj, packKmer_testBit t ht j]
      have hg : decide (j < 2 * t.length) = true := decide_eq_true hj
      have hg' : decide (j < 2 * (b :: t).length) = true := by
        simp only [List.length_cons]
        exact decide_eq_true (by omega)
      rw [hg, hg']
      have hidx : (b :: t).length - 1 - j / 2 = (t.length - 1 - j / 2) + 1 := by
        simp only [List.length_cons]
        omega
      rw [hidx, List.getD_cons_succ]
    · rw [if_neg hj]
      by_cases hj2 : j < 2 * t.length + 2
      · have hg' : decide (j < 2 * (b :: t).length) = true := by
          simp only [List.length_cons]
          exact decide_eq_true (by omega)
        rw [hg', Bool.true_and]
        have hidx : (b :: t).length - 1 - j / 2 = 0 := by
          simp only [List.length_cons]
          omega
        rw [hidx, List.getD_cons_zero]
        have harg : j - 2 * t.length = j % 2 := by omega
        rw [harg]
      · have hg' : decide (j < 2 * (b :: t).length) = false := by
          simp only [List.length_cons]
          exact decide_eq_false (by omega)
        rw [hg', Bool.false_and]
        apply Nat.testBit_lt_two_pow
        calc ENCODING b < 4 := hb
          _ = 2 ^ 2 := by norm_num
          _ ≤ 2 ^ (j - 2 * t.length) := Nat.pow_le_pow_right (by norm_num) (by omega)

/-- `reverseBitsAux` stays below `2 ^ w`. -/
theorem reverseBitsAux_lt : ∀ (w x : ℕ), reverseBitsAux w x < 2 ^ w
  | 0, x => by simp [reverseBitsAux]
  | w + 1, x => by
    simp only [reverseBitsAux]
    have h1 := reverseBitsAux_lt w (x / 2)
    have h2 : x % 2 * 2 ^ w ≤ 2 ^ w := by
      have : x % 2 ≤ 1 := by omega
      calc x % 2 * 2 ^ w ≤ 1 * 2 ^ w := Nat.mul_le_mul_right _ this
        _ = 2 ^ w := one_mul _
    have h3 : (2 : ℕ) ^ (w + 1) = 2 ^ w + 2 ^ w := by
      rw [pow_succ]
      ring
    omega

/-- Bit `j` of the `w`-bit reversal is bit `w - 1 - j` of the input. -/
theorem reverseBitsAux_testBit : ∀ (w x j : ℕ),
    Nat.testBit (reverseBitsAux w x) j
      = (decide (j < w) && Nat.testBit x (w - 1 - j))
  | 0, x, j => by simp [reverseBitsAux]
  | w + 1, x, j => by
    simp only [reverseBitsAux]
    have hb := reverseBitsAux_lt w (x / 2)
    have hshape : reverseBitsAux w (x / 2) + x % 2 * 2 ^ w
        = 2 ^ w * (x % 2) + reverseBitsAux w (x / 2) := by ring
    rw [hshape, Nat.testBit_mul_pow_two_add _ hb j]
    by_cases hj : j < w
    · rw [if_pos hj, reverseBitsAux_testBit w (x / 2) j]
      have h1 : decide (j < w) = true := decide_eq_true hj
      have h2 : decide (j < w + 1) = true := decide_eq_true (by omega)
      rw [h1, h2]
      have hidx : w + 1 - 1 - j = (w - 1 - j) + 1 := by omega
      rw [hidx, Nat.testBit_succ]
    · rw [if_neg hj]
      by_cases hj1 : j = w
      · subst hj1
        have h2 : decide (j < j + 1) = true := decide_eq_true (by omega)
        rw [h2, Bool.true_and]
        have hidx : j + 1 - 1 - j = 0 := by omega
        rw [hidx]
        have hmm : x % 2 % 2 = x % 2 := Nat.mod_mod_of_dvd x dvd_rfl
        simp [Nat.testBit_zero, hmm]
      · have h2 : decide (j < w + 1) = false := decide_eq_false (by omega)
        rw [h2, Bool.false_and]
        apply Nat.testBit_lt_two_pow
        calc x % 2 < 2 := by omega
          _ = 2 ^ 1 := by norm_num
          _ ≤ 2 ^ (j - w) := Nat.pow_le_pow_right (by norm_num) (by omega)

set_option maxRecDepth 8192 in
/-- Bits of the `0x5555…` even-bit mask. -/
theorem m5_testBit (j : ℕ) :
    Nat.testBit 0x5555555555555555 j = (decide (j < 64) && decide (j % 2 = 0)) := by
  by_cases h : j < 64
  · have hall : ∀ i < 64, Nat.testBit 0x5555555555555555 i = decide (i % 2 = 0) := by
      decide
    rw [hall j h, decide_eq_true h, Bool.true_and]
  · rw [decide_eq_false h, Bool.false_and]
    apply Nat.testBit_lt_two_pow
    calc (0x5555555555555555 : ℕ) < 2 ^ 64 := by norm_num
      _ ≤ 2 ^ j := Nat.pow_le_pow_right (by norm_num) (by omega)

/-- Indexing the reverse complement. -/
theorem rc_getD (s : List ℕ) (i : ℕ) (h : i < s.length) :
    (reverse_complement s).getD i 0
      = complementByte (s.getD (s.length - 1 - i) 0) := by
  unfold reverse_complement
  have h1 : i < (s.reverse.map complementByte).length := by simpa using h
  have h2 : s.length - 1 - i < s.length := by omega
  rw [List.getD_eq_getElem _ _ h1, List.getD_eq_getElem _ _ h2]
  rw [List.getElem_map, List.getElem_reverse]

/-- The bit transform of `get_canonical_u64` computes the packed reverse
complement, for 31-mers over uppercase ACGT. -/
theorem rcTransform_pack (s : List ℕ) (hlen : s.length = 31)
    (hs : ∀ b ∈ s, isACGT b) :
    rcTransform (packKmer s) = packKmer (reverse_complement s) := by
  have hrc_len : (reverse_complement s).length = 31 := by
    simp [reverse_complement, hlen]
  have hrc_acgt : ∀ b ∈ reverse_complement s, isACGT b := by
    intro b hb
    unfold reverse_complement at hb
    rw [List.mem_map] at hb
    obtain ⟨a, ha, rfl⟩ := hb
    exact compl_isACGT a (hs a (List.mem_reverse.mp ha))
  have hxbit : ∀ i, Nat.testBit (packKmer s) i
      = (decide (i < 62) && Nat.testBit (ENCODING (s.getD (30 - i / 2) 0)) (i % 2)) := by
    intro i
    rw [packKmer_testBit s hs i, hlen]
  have hrcbit : ∀ i, Nat.testBit (packKmer (reverse_complement s)) i
      = (decide (i < 62) && ! Nat.testBit (ENCODING (s.getD (i / 2) 0)) (i % 2)) := by
    intro i
    rw [packKmer_testBit _ hrc_acgt i, hrc_len]
    by_cases hi : i < 62
    · have hg1 : decide (i < 2 * 31) = true := decide_eq_true (by omega)
      simp only [hg1, decide_eq_true hi, Bool.true_and]
      have hidx : (31 : ℕ) - 1 - i / 2 = 30 - i / 2 := by omega
      rw [hidx, rc_getD s (30 - i / 2) (by omega)]
      have hidx2 : s.length - 1 - (30 - i / 2) = i / 2 := by
        rw [hlen]; omega
      rw [hidx2]
      have hmem : s.getD (i / 2) 0 ∈ s := getD_mem_of_lt s (i / 2) 0 (by omega)
      rw [code_compl _ (hs _ hmem)]
      exact testBit_three_sub _ (code_lt_four _ (hs _ hmem)) _ (Nat.mod_lt _ (by norm_num))
    · have hg1 : decide (i < 2 * 31) = false := decide_eq_false (by omega)
      simp only [hg1, decide_eq_false hi, Bool.false_and]
  have hr2 : ∀ i,
      Nat.testBit (reverseBitsAux 64 (packKmer s) >>> (64 - 2 * K_MER_LENGTH)) i
        = (decide (i < 62) && Nat.testBit (packKmer s) (61 - i)) := by
    intro i
    rw [show (64 - 2 * K_MER_LENGTH : ℕ) = 2 by norm_num [K_MER_LENGTH],
      Nat.testBit_shiftRight, reverseBitsAux_testBit]
    by_cases hi : i < 62
    · have h1 : decide (2 + i < 64) = true := decide_eq_true (by omega)
      have h2 : decide (i < 62) = true := decide_eq_true hi
      rw [h1, h2, Bool.true_and, Bool.true_and]
      congr 1
      omega
    · have h1 : decide (2 + i < 64) = false := decide_eq_false (by omega)
      have h2 : decide (i < 62) = false := decide_eq_false hi
      rw [h1, h2, Bool.false_and, Bool.false_and]
  apply Nat.eq_of_testBit_eq
  intro j
  show Nat.testBit (rcTransform (packKmer s)) j = _
  unfold rcTransform
  simp only [Nat.testBit_xor, Nat.testBit_lor, Nat.testBit_and, Nat.testBit_shiftLeft]
  rw [Nat.testBit_shiftRight
      (reverseBitsAux 64 (packKmer s) >>> (64 - 2 * K_MER_LENGTH))]
  rw [show (2 ^ (2 * K_MER_LENGTH) - 1 : ℕ) = 2 ^ 62 - 1 by norm_num [K_MER_LENGTH],
    Nat.testBit_two_pow_sub_one]
  rw [m5_testBit j, m5_testBit (j - 1), hr2 (1 + j), hr2 (j - 1), hrcbit j]
  by_cases hj : j < 62
  · have hg : decide (j < 62) = true := decide_eq_true hj
    rcases Nat.mod_two_eq_zero_or_one j with hpar | hpar
    · -- even lane bit
      by_cases hj0 : j = 0
      · subst hj0
        rw [hxbit 60]
        norm_num
      · have h1 : decide (1 + j < 62) = true := decide_eq_true (by omega)
        have h2 : decide (j < 64) = true := decide_eq_true (by omega)
        have h3 : decide (j % 2 = 0) = true := decide_eq_true hpar
        have h4 : decide ((j - 1) % 2 = 0) = false := decide_eq_false (by omega)
        have h5 : decide (1 ≤ j) = true := decide_eq_true (by omega)
        have hidx : 61 - (1 + j) = 60 - j := by omega
        rw [h1, h2, h3, h4, h5, hidx, hg, hxbit (60 - j)]
        have h6 : decide (60 - j < 62) = true := decide_eq_true (by omega)
        have hidx2 : 30 - (60 - j) / 2 = j / 2 := by omega
        have hidx3 : (60 - j) % 2 = j % 2 := by omega
        rw [h6, hidx2, hidx3]
        simp
    · -- odd lane bit
      have h1 : decide (1 + j < 62) = decide (j < 61) := by
        by_cases h : j < 61
        · rw [decide_eq_true (by omega : 1 + j < 62), decide_eq_true h]
        · rw [decide_eq_false (by omega : ¬ 1 + j < 62), decide_eq_false h]
      have h3 : decide (j % 2 = 0) = false := decide_eq_false (by omega)
      have h4 : decide ((j - 1) % 2 = 0) = true := decide_eq_true (by omega)
      have h5 : decide (1 ≤ j) = true := decide_eq_true (by omega)
      have h6 : decide (j - 1 < 62) = true := decide_eq_true (by omega)
      have h7 : decide (j - 1 < 64) = true := decide_eq_true (by omega)
      have hidx : 61 - (j - 1) = 62 - j := by omega
      rw [h1, h3, h4, h5, h6, h7, hidx, hg, hxbit (62 - j)]
      have h8 : decide (62 - j < 62) = true := decide_eq_true (by omega)
      have hidx2 : 30 - (62 - j) / 2 = j / 2 := by omega
      have hidx3 : (62 - j) % 2 = j % 2 := by omega
      rw [h8, hidx2, hidx3]
      simp
  · have hg : decide (j < 62) = false := decide_eq_false hj
    have h1 : decide (1 + j < 62) = false := decide_eq_false (by omega)
    rcases Nat.mod_two_eq_zero_or_one j with hpar | hpar
    · have h4 : decide ((j - 1) % 2 = 0) = false := decide_eq_false (by omega)
      rw [hg, h1, h4]
      simp
    · have h3 : decide (j % 2 = 0) = false := decide_eq_false (by omega)
      have h6 : decide (j - 1 < 62) = false := decide_eq_false (by omega)
      rw [hg, h1, h3, h6]
      simp

/-- On same-length uppercase sequences, byte-wise lexicographic order
agrees with numeric order of the packed integers. -/
theorem bytesLE_iff_pack_le : ∀ (u v : List ℕ), u.length = v.length →
    (∀ b ∈ u, isACGT b) → (∀ b ∈ v, isACGT b) →
    (bytesLE u v = true ↔ packKmer u ≤ packKmer v)
  | [], [], _, _, _ => by simp [bytesLE]
  | [], b :: v, h, _, _ => by simp at h
  | a :: u, [], h, _, _ => by simp at h
  | a :: u, b :: v, h, hu, hv => by
    have ha : isACGT a := hu a (List.mem_cons_self _ _)
    have hb : isACGT b := hv b (List.mem_cons_self _ _)
    have hu' : ∀ x ∈ u, isACGT x := fun x hx => hu x (List.mem_cons_of_mem _ hx)
    have hv' : ∀ x ∈ v, isACGT x := fun x hx => hv x (List.mem_cons_of_mem _ hx)
    have hlen : u.length = v.length := by simpa using h
    rw [packKmer_cons, packKmer_cons, hlen]
    simp only [bytesLE]
    by_cases hab : a < b
    · rw [if_pos hab]
      have hcode : ENCODING a < ENCODING b := (byte_lt_iff_code_lt a b ha hb).mp hab
      have hM : packKmer u < 4 ^ v.length := hlen ▸ packKmer_lt u hu'
      have hlt : ENCODING a * 4 ^ v.length + packKmer u
          < ENCODING b * 4 ^ v.length + packKmer v := by
        calc ENCODING a * 4 ^ v.length + packKmer u
            < ENCODING a * 4 ^ v.length + 4 ^ v.length := by omega
          _ = (ENCODING a + 1) * 4 ^ v.length := by ring
          _ ≤ ENCODING b * 4 ^ v.length := Nat.mul_le_mul_right _ hcode
          _ ≤ ENCODING b * 4 ^ v.length + packKmer v := Nat.le_add_right _ _
      simpa using hlt.le
    · rw [if_neg hab]
      by_cases hba : b < a
      · rw [if_pos hba]
        have hcode : ENCODING b < ENCODING a := (byte_lt_iff_code_lt b a hb ha).mp hba
        have hM : packKmer v < 4 ^ v.length := packKmer_lt v hv'
        have hlt : ENCODING b * 4 ^ v.length + packKmer v
            < ENCODING a * 4 ^ v.length + packKmer u := by
          calc ENCODING b * 4 ^ v.length + packKmer v
              < ENCODING b * 4 ^ v.length + 4 ^ v.length := by omega
            _ = (ENCODING b + 1) * 4 ^ v.length := by ring
            _ ≤ ENCODING a * 4 ^ v.length := Nat.mul_le_mul_right _ hcode
            _ ≤ ENCODING a * 4 ^ v.length + packKmer u := Nat.le_add_right _ _
        simp only [Bool.false_eq_true, false_iff]
        omega
      · have hab2 : a = b := by omega
        subst hab2
        rw [if_neg hba, bytesLE_iff_pack_le u v hlen hu' hv']
        omega

/-- C2: for every 31-mer over uppercase {A,C,G,T}, the canonical form
computed on the packed 2-bit integer by `get_canonical_u64` (bit reversal,
right shift, adjacent-bit swap, complement, numeric minimum) equals the
byte-wise canonical form computed by `get_canonical` on the letter
sequence, re-encoded as a packed integer. -/
theorem packed_canonical_parity (s : List ℕ) (hlen : s.length = 31)
    (hs : ∀ b ∈ s, isACGT b) :
    get_canonical_u64 (packKmer s) = packKmer (get_canonical s) := by
  have hrc_len : (reverse_complement s).length = s.length := by
    simp [reverse_complement]
  have hrc_acgt : ∀ b ∈ reverse_complement s, isACGT b := by
    intro b hb
    unfold reverse_complement at hb
    rw [List.mem_map] at hb
    obtain ⟨a, ha, rfl⟩ := hb
    exact compl_isACGT a (hs a (List.mem_reverse.mp ha))
  have hT : rcTransform (packKmer s) = packKmer (reverse_complement s) :=
    rcTransform_pack s hlen hs
  have hiff := bytesLE_iff_pack_le s (reverse_complement s) hrc_len.symm hs hrc_acgt
  unfold get_canonical_u64 get_canonical
  rw [hT]
  by_cases hle : bytesLE s (reverse_complement s) = true
  · rw [if_pos hle]
    have hple : packKmer s ≤ packKmer (reverse_complement s) := hiff.mp hle
    by_cases hlt : packKmer s < packKmer (reverse_complement s)
    · rw [if_pos hlt]
    · rw [if_neg hlt]
      omega
  · rw [if_neg hle]
    have hgt : ¬ packKmer s ≤ packKmer (reverse_complement s) :=
      fun hc => hle (hiff.mpr hc)
    rw [if_neg (by omega : ¬ packKmer s < packKmer (reverse_complement s))]

instance isACGT_decidable (b : ℕ) : Decidable (isACGT b) :=
  inferInstanceAs (Decidable (b = 65 ∨ b = 67 ∨ b = 71 ∨ b = 84))

/-- Witness for C2 at the concrete 31-mer ACGTACGTACGTACGTACGTACGTACGTACG. -/
theorem packed_canonical_parity_witness :
    ([65, 67, 71, 84, 65, 67, 71, 84, 65, 67, 71, 84, 65, 67, 71, 84,
      65, 67, 71, 84, 65, 67, 71, 84, 65, 67, 71, 84, 65, 67, 71] : List ℕ).length = 31 ∧
    (∀ b ∈ ([65, 67, 71, 84, 65, 67, 71, 84, 65, 67, 71, 84, 65, 67, 71, 84,
      65, 67, 71, 84, 65, 67, 71, 84, 65, 67, 71, 84, 65, 67, 71] : List ℕ), isACGT b) ∧
    get_canonical_u64 (packKmer [65, 67, 71, 84, 65, 67, 71, 84, 65, 67, 71, 84,
        65, 67, 71, 84, 65, 67, 71, 84, 65, 67, 71, 84, 65, 67, 71, 84, 65, 67, 71])
      = packKmer (get_canonical [65, 67, 71, 84, 65, 67, 71, 84, 65, 67, 71, 84,
        65, 67, 71, 84, 65, 67, 71, 84, 65, 67, 71, 84, 65, 67, 71, 84, 65, 67, 71]) :=
  ⟨by decide, by decide, packed_canonical_parity _ (by decide) (by decide)⟩

/-- ASCII whitespace as Rust `char::is_whitespace` sees it in FASTA byte
streams (space, tab, newline, carriage return). -/
def isWS (b : ℕ) : Bool := b == 32 || b == 9 || b == 10 || b == 13

/-- Rust `str::trim_end`. -/
def trimEnd (l : List ℕ) : List ℕ := (l.reverse.dropWhile isWS).reverse

/-- Rust `str::trim`. -/
def trim (l : List ℕ) : List ℕ := trimEnd (l.dropWhile isWS)

/-- `line.starts_with('>')`. -/
def startsGt (l : List ℕ) : Bool := l.head? == some 62

/-- The record identifier `next_record` extracts:
`line.trim_start_matches('>').trim_end()`. -/
def parseId (l : List ℕ) : List ℕ := trimEnd (l.dropWhile (fun b => b == 62))

/-- State of `FastaReader` (src/fasta.rs) over a pure line stream: the
remaining lines the underlying `BufRead` will yield (each line as raw
bytes, newline included; `read_line` returns 0 bytes exactly when the
list is empty), the `line` buffer, the `finished` flag and the current
record `id`. -/
structure FastaReader where
  input : List (List ℕ)
  line : List ℕ
  finished : Bool
  id : Option (List ℕ)
  deriving Repr, DecidableEq

/-- `FastaReader::new`. -/
def FastaReader.new (lines : List (List ℕ)) : FastaReader :=
  ⟨lines, [], false, none⟩

/-- `FastaReader::next_record`: `Ok false` after the end of input,
`Err` (InvalidData) if the pending line does not start with `>`,
otherwise `Ok true` with the parsed identifier stored.  The line buffer
is only read when non-empty (left over from a k-mer stream); otherwise
one line is read. -/
def nextRecord (r : FastaReader) : Except Unit (Bool × FastaReader) :=
  if r.finished then .ok (false, r)
  else if r.line = [] then
    match r.input with
    | [] => .ok (false, { r with finished := true })
    | l :: rest =>
      if startsGt l then
        .ok (true, { r with input := rest, line := [], id := some (parseId l) })
      else .error ()
  else
    if startsGt r.line then
      .ok (true, { r with line := [], id := some (parseId r.line) })
    else .error ()

/-- State of `KmerStream` (src/fasta.rs): the borrowed reader, the window
size, the byte deque and the `stream_finished` flag. -/
structure KmerStream where
  reader : FastaReader
  k : ℕ
  buffer : List ℕ
  stream_finished : Bool
  deriving Repr, DecidableEq

/-- `KmerStream::new`. -/
def KmerStream.new (r : FastaReader) (k : ℕ) : KmerStream :=
  ⟨r, k, [], false⟩

/-- `KmerStream::fill_buffer`: read lines until the buffer holds `k`
bytes; end of input sets both `stream_finished` and the reader's
`finished`; a `>` line sets `stream_finished` and stays in the reader's
line buffer; other lines are trimmed and appended to the deque. -/
def fillBuffer (s : KmerStream) : KmerStream :=
  if s.buffer.length < s.k ∧ s.stream_finished = false then
    match hm : s.reader.input with
    | [] =>
      { s with
        stream_finished := true
        reader := { s.reader with line := [], finished := true } }
    | l :: rest =>
      if startsGt l then
        { s with
          stream_finished := true
          reader := { s.reader with line := l, input := rest } }
      else
        fillBuffer
          { s with
            buffer := s.buffer ++ trim l
            reader := { s.reader with line := l, input := rest } }
  else s
termination_by s.reader.input.length
decreasing_by simp [hm]

/-- `<KmerStream as Iterator>::next` (the pure model has no I/O errors):
`none` when the stream is over, otherwise the first `k` buffered bytes,
popping one byte. -/
def KmerStream.next (s : KmerStream) : Option (List ℕ) × KmerStream :=
  if s.stream_finished = true ∧ s.buffer.length < s.k then (none, s)
  else
    let s1 := fillBuffer s
    if s1.buffer.length < s1.k then (none, s1)
    else (some (s1.buffer.take s1.k), { s1 with buffer := s1.buffer.tail })

/-- Calling `next` `n` times, keeping only the final state. -/
def consumeNext : ℕ → KmerStream → KmerStream
  | 0, s => s
  | n + 1, s => consumeNext n (s.next).2

/-- The loop in `impl Drop for KmerStream`: consume lines until the next
record marker or end of input. -/
def dropLoop (r : FastaReader) : FastaReader :=
  match hm : r.input with
  | [] => { r with line := [], finished := true }
  | l :: rest =>
    if startsGt l then { r with line := l, input := rest }
    else dropLoop { r with line := l, input := rest }
termination_by r.input.length
decreasing_by simp [hm]

/-- `drop` on the stream: a short-circuit when `stream_finished`,
otherwise the cleanup loop; returns the reader it leaves behind. -/
def dropStream (s : KmerStream) : FastaReader :=
  if s.stream_finished = true then s.reader else dropLoop s.reader

/-- Collect the k-mers `next` yields, stopping at `none` (fuel-bounded;
any fuel beyond the stream's total number of steps gives the full
output). -/
def collectKmers : ℕ → KmerStream → List (List ℕ)
  | 0, _ => []
  | fuel + 1, s =>
    match s.next with
    | (none, _) => []
    | (some km, s') => km :: collectKmers fuel s'

/-- The trimmed bytes still to be read for the current record. -/
def pendingSum (s : KmerStream) : ℕ :=
  ((s.reader.input.takeWhile (fun l => !startsGt l)).map (fun l => (trim l).length)).sum

/-- Number of k-mers still to be produced from a stream state. -/
def EM (s : KmerStream) : ℕ :=
  if s.stream_finished then s.buffer.length + 1 - s.k
  else s.buffer.length + pendingSum s + 1 - s.k

/-- `fill_buffer` preserves the window size and the number of k-mers to
come, and only stops short of `k` buffered bytes when the stream ends
(worker lemma, input list explicit). -/
theorem fillBuffer_spec_aux :
    ∀ (inp : List (List ℕ)) (lineb : List ℕ) (fin : Bool) (idf : Option (List ℕ))
      (k : ℕ) (buf : List ℕ) (sfin : Bool),
      (fillBuffer ⟨⟨inp, lineb, fin, idf⟩, k, buf, sfin⟩).k = k ∧
      EM (fillBuffer ⟨⟨inp, lineb, fin, idf⟩, k, buf, sfin⟩)
        = EM ⟨⟨inp, lineb, fin, idf⟩, k, buf, sfin⟩ ∧
      ((fillBuffer ⟨⟨inp, lineb, fin, idf⟩, k, buf, sfin⟩).stream_finished = false →
        k ≤ (fillBuffer ⟨⟨inp, lineb, fin, idf⟩, k, buf, sfin⟩).buffer.length)
  | [], lineb, fin, idf, k, buf, sfin => by
    by_cases hcond : buf.length < k ∧ sfin = false
    · rw [fillBuffer]
      simp only [show (⟨⟨[], lineb, fin, idf⟩, k, buf, sfin⟩ : KmerStream).buffer = buf
          from rfl]
      rw [if_pos hcond]
      refine ⟨by trivial, ?_, ?_⟩
      · unfold EM pendingSum
        simp [hcond.2]
      · intro h
        simp at h
    · rw [fillBuffer, if_neg hcond]
      refine ⟨rfl, rfl, ?_⟩
      intro h
      simp only at h
      rcases Nat.lt_or_ge buf.length k with hlt | hge
      · exact absurd ⟨hlt, h⟩ hcond
      · exact hge
  | l :: rest, lineb, fin, idf, k, buf, sfin => by
    by_cases hcond : buf.length < k ∧ sfin = false
    · have hsf := hcond.2
      subst hsf
      by_cases hgt : startsGt l = true
      · rw [fillBuffer, if_pos hcond]
        simp only [hgt, if_true]
        refine ⟨by trivial, ?_, ?_⟩
        · unfold EM pendingSum
          simp [hgt]
        · intro h
          simp at h
      · rw [fillBuffer, if_pos hcond]
        simp only [hgt, Bool.false_eq_true, if_false]
        obtain ⟨ih1, ih2, ih3⟩ :=
          fillBuffer_spec_aux rest l fin idf k (buf ++ trim l) false
        refine ⟨ih1, ?_, ih3⟩
        rw [ih2]
        unfold EM pendingSum
        simp [hgt]
        omega
    · rw [fillBuffer, if_neg hcond]
      refine ⟨rfl, rfl, ?_⟩
      intro h
      simp only at h
      rcases Nat.lt_or_ge buf.length k with hlt | hge
      · exact absurd ⟨hlt, h⟩ hcond
      · exact hge

/-- `fill_buffer` specification on an arbitrary stream state. -/
theorem fillBuffer_spec (s : KmerStream) :
    (fillBuffer s).k = s.k ∧ EM (fillBuffer s) = EM s ∧
    ((fillBuffer s).stream_finished = false → s.k ≤ (fillBuffer s).buffer.length) := by
  obtain ⟨⟨inp, lineb, fin, idf⟩, k, buf, sfin⟩ := s
  exact fillBuffer_spec_aux inp lineb fin idf k buf sfin

/-- Popping one byte from a full-enough buffer lowers the remaining
k-mer count by one. -/
theorem EM_pop (t : KmerStream) (h : t.k ≤ t.buffer.length) (hk1 : 1 ≤ t.k) :
    EM { t with buffer := t.buffer.tail } + 1 = EM t := by
  obtain ⟨⟨inp, lineb, fin, idf⟩, k, buf, sfin⟩ := t
  simp only at h hk1
  unfold EM pendingSum
  simp only
  have htail : buf.tail.length = buf.length - 1 := List.length_tail _
  cases sfin <;> simp only [if_true, if_false, Bool.false_eq_true] <;> rw [htail] <;> omega

/-- When `next` yields `none`, no k-mers remained. -/
theorem next_none_spec (s : KmerStream) :
    ∀ s', s.next = (none, s') → EM s = 0 := by
  intro s' heq
  unfold KmerStream.next at heq
  by_cases h1 : s.stream_finished = true ∧ s.buffer.length < s.k
  · unfold EM
    rw [h1.1]
    simp only [if_true]
    omega
  · rw [if_neg h1] at heq
    obtain ⟨hk', hEM, hfull⟩ := fillBuffer_spec s
    by_cases h2 : (fillBuffer s).buffer.length < (fillBuffer s).k
    · rw [if_pos h2] at heq
      rcases hsf : (fillBuffer s).stream_finished with hf | ht
      · exfalso
        have := hfull hsf
        rw [hk'] at h2
        omega
      · rw [← hEM]
        unfold EM
        rw [hsf]
        simp only [if_true]
        rw [hk'] at h2
        omega
    · rw [if_neg h2] at heq
      simp at heq

/-- When `next` yields a k-mer, it has length `k` and exactly one fewer
k-mer remains. -/
theorem next_some_spec (s : KmerStream) (hk : 1 ≤ s.k) :
    ∀ km s', s.next = (some km, s') →
      km.length = s.k ∧ s'.k = s.k ∧ EM s' + 1 = EM s := by
  intro km s' heq
  unfold KmerStream.next at heq
  by_cases h1 : s.stream_finished = true ∧ s.buffer.length < s.k
  · rw [if_pos h1] at heq
    simp at heq
  · rw [if_neg h1] at heq
    obtain ⟨hk', hEM, hfull⟩ := fillBuffer_spec s
    by_cases h2 : (fillBuffer s).buffer.length < (fillBuffer s).k
    · rw [if_pos h2] at heq
      simp at heq
    · rw [if_neg h2] at heq
      have hko : (fillBuffer s).k ≤ (fillBuffer s).buffer.length := by omega
      injection heq with he1 he2
      injection he1 with he1
      subst he1
      subst he2
      refine ⟨?_, hk', ?_⟩
      · rw [List.length_take, ← hk']
        omega
      · rw [← hEM]
        exact EM_pop (fillBuffer s) hko (by omega)

/-- With enough fuel, `collectKmers` yields exactly `EM` windows, each of
length `k`. -/
theorem collectKmers_spec : ∀ (fuel : ℕ) (s : KmerStream), 1 ≤ s.k → EM s < fuel →
    (collectKmers fuel s).length = EM s ∧
    ∀ km ∈ collectKmers fuel s, km.length = s.k
  | 0, s, _, h => absurd h (by omega)
  | fuel + 1, s, hk, hfuel => by
    rcases hnext : s.next with ⟨o, s'⟩
    cases o with
    | none =>
      have h0 := next_none_spec s s' hnext
      constructor
      · simp [collectKmers, hnext, h0]
      · intro km hkm
        simp [collectKmers, hnext] at hkm
    | some km =>
      obtain ⟨hlen, hkk, hEM⟩ := next_some_spec s hk km s' hnext
      have hk' : 1 ≤ s'.k := by omega
      obtain ⟨ihl, ihm⟩ := collectKmers_spec fuel s' hk' (by omega)
      constructor
      · simp only [collectKmers, hnext, List.length_cons, ihl]
        omega
      · intro x hx
        simp only [collectKmers, hnext, List.mem_cons] at hx
        rcases hx with rfl | hx
        · exact hlen
        · exact (ihm x hx).trans hkk

/-- C5: for every record (arbitrarily split across lines) whose
concatenated trimmed sequence has length `L = pendingSum`, and every
`k ≥ 1`, the k-mer iterator produces exactly `max(0, L - k + 1)` windows
(`L + 1 - k` in truncated arithmetic), each of length `k`. -/
theorem kmer_iterator_count (r : FastaReader) (k fuel : ℕ) (hk : 1 ≤ k)
    (hfuel : pendingSum (KmerStream.new r k) + 1 ≤ fuel) :
    (collectKmers fuel (KmerStream.new r k)).length
      = pendingSum (KmerStream.new r k) + 1 - k ∧
    ∀ km ∈ collectKmers fuel (KmerStream.new r k), km.length = k := by
  have hEM : EM (KmerStream.new r k) = pendingSum (KmerStream.new r k) + 1 - k := by
    unfold EM KmerStream.new
    simp only [if_false, Bool.false_eq_true, List.length_nil]
    omega
  have h := collectKmers_spec fuel (KmerStream.new r k) hk (by omega)
  rw [hEM] at h
  exact h

/-- Witness for C5: record lines `AC\n`, `TT\n` before `>x\n`, `k = 3`:
the concatenated trimmed sequence `ACTT` has `L = 4`, giving two
windows. -/
theorem kmer_iterator_count_witness :
    1 ≤ 3 ∧
    pendingSum (KmerStream.new
        (FastaReader.new [[65, 67, 10], [84, 84, 10], [62, 120, 10]]) 3) + 1 ≤ 6 ∧
    ((collectKmers 6 (KmerStream.new
          (FastaReader.new [[65, 67, 10], [84, 84, 10], [62, 120, 10]]) 3)).length
        = pendingSum (KmerStream.new
            (FastaReader.new [[65, 67, 10], [84, 84, 10], [62, 120, 10]]) 3) + 1 - 3 ∧
      ∀ km ∈ collectKmers 6 (KmerStream.new
          (FastaReader.new [[65, 67, 10], [84, 84, 10], [62, 120, 10]]) 3),
        km.length = 3) :=
  ⟨by decide, by decide,
    kmer_iterator_count (FastaReader.new [[65, 67, 10], [84, 84, 10], [62, 120, 10]])
      3 6 (by decide) (by decide)⟩

/-- Invariant tying a live k-mer stream to the original line list `ls`:
while filling, only non-record-marker lines have been consumed; once the
stream is finished, either the `>` line that stopped it sits in the line
buffer, or the input ran out and every line was a sequence line. -/
def StreamInv (ls : List (List ℕ)) (s : KmerStream) : Prop :=
  (s.stream_finished = false ∧
    (∃ p, ls = p ++ s.reader.input ∧ ∀ l ∈ p, startsGt l = false) ∧
    (s.reader.finished = true → s.reader.input = [])) ∨
  (s.stream_finished = true ∧
    ((∃ p t, ls = p ++ s.reader.line :: t ∧ (∀ l ∈ p, startsGt l = false) ∧
        startsGt s.reader.line = true ∧ s.reader.input = t ∧
        s.reader.finished = false) ∨
      ((∀ l ∈ ls, startsGt l = false) ∧ s.reader.input = [] ∧
        s.reader.finished = true ∧ s.reader.line = [])))

/-- Dropping a prefix on which the predicate holds. -/
theorem dropWhile_append_all (p : List ℕ → Bool) :
    ∀ (a b : List (List ℕ)), (∀ l ∈ a, p l = true) →
      (a ++ b).dropWhile p = b.dropWhile p
  | [], _, _ => rfl
  | x :: a, b, h => by
    simp only [List.cons_append, List.dropWhile_cons,
      h x (List.mem_cons_self _ _), if_true]
    exact dropWhile_append_all p a b (fun l hl => h l (List.mem_cons_of_mem _ hl))

/-- `dropWhile` of an all-satisfying list is empty. -/
theorem dropWhile_eq_nil_of_all (p : List ℕ → Bool) :
    ∀ (a : List (List ℕ)), (∀ l ∈ a, p l = true) → a.dropWhile p = []
  | [], _ => rfl
  | x :: a, h => by
    simp only [List.dropWhile_cons, h x (List.mem_cons_self _ _), if_true]
    exact dropWhile_eq_nil_of_all p a (fun l hl => h l (List.mem_cons_of_mem _ hl))

/-- `fill_buffer` preserves the stream invariant (worker on a live
stream). -/
theorem fillBuffer_inv_aux (ls : List (List ℕ)) :
    ∀ (inp : List (List ℕ)) (lineb : List ℕ) (fin : Bool) (idf : Option (List ℕ))
      (k : ℕ) (buf : List ℕ),
      (∃ p, ls = p ++ inp ∧ ∀ l ∈ p, startsGt l = false) →
      (fin = true → inp = []) →
      StreamInv ls (fillBuffer ⟨⟨inp, lineb, fin, idf⟩, k, buf, false⟩)
  | [], lineb, fin, idf, k, buf, ⟨p, hp, hpall⟩, hfin => by
    by_cases hcond : buf.length < k ∧ (false : Bool) = false
    · rw [fillBuffer, if_pos hcond]
      right
      refine ⟨rfl, Or.inr ⟨?_, rfl, rfl, rfl⟩⟩
      intro l hl
      rw [hp, List.append_nil] at hl
      exact hpall l hl
    · rw [fillBuffer, if_neg hcond]
      left
      exact ⟨rfl, ⟨p, hp, hpall⟩, hfin⟩
  | l :: rest, lineb, fin, idf, k, buf, ⟨p, hp, hpall⟩, hfin => by
    have hfin' : fin = false := by
      cases fin
      · rfl
      · exact absurd (hfin rfl) (by simp)
    subst hfin'
    by_cases hcond : buf.length < k ∧ (false : Bool) = false
    · by_cases hgt : startsGt l = true
      · rw [fillBuffer, if_pos hcond]
        simp only [hgt, if_true]
        right
        exact ⟨rfl, Or.inl ⟨p, rest, hp, hpall, hgt, rfl, rfl⟩⟩
      · rw [fillBuffer, if_pos hcond]
        simp only [hgt, Bool.false_eq_true, if_false]
        apply fillBuffer_inv_aux ls rest l false idf k (buf ++ trim l)
        · refine ⟨p ++ [l], by simp [hp], ?_⟩
          intro x hx
          rcases List.mem_append.mp hx with hx | hx
          · exact hpall x hx
          · rw [List.mem_singleton.mp hx]
            exact Bool.not_eq_true _ ▸ (by simpa using hgt)
        · simp
    · rw [fillBuffer, if_neg hcond]
      left
      exact ⟨rfl, ⟨p, hp, hpall⟩, by simp⟩

/-- The invariant only concerns the reader and the finished flag. -/
theorem StreamInv_buffer (ls : List (List ℕ)) (s : KmerStream) (b : List ℕ) :
    StreamInv ls { s with buffer := b } ↔ StreamInv ls s := by
  obtain ⟨⟨inp, lineb, fin, idf⟩, k, buf, sfin⟩ := s
  exact Iff.rfl

/-- `fill_buffer` preserves the stream invariant. -/
theorem fillBuffer_inv (ls : List (List ℕ)) (s : KmerStream)
    (h : StreamInv ls s) : StreamInv ls (fillBuffer s) := by
  obtain ⟨⟨inp, lineb, fin, idf⟩, k, buf, sfin⟩ := s
  rcases h with ⟨hsf, ⟨p, hp, hpall⟩, hfin⟩ | ⟨hsf, hB⟩
  · simp only at hsf hfin hp
    subst hsf
    exact fillBuffer_inv_aux ls inp lineb fin idf k buf ⟨p, hp, hpall⟩ hfin
  · simp only at hsf
    subst hsf
    rw [fillBuffer, if_neg (by simp)]
    exact Or.inr ⟨rfl, hB⟩

/-- `next` preserves the stream invariant. -/
theorem next_inv (ls : List (List ℕ)) (s : KmerStream)
    (h : StreamInv ls s) : StreamInv ls (s.next).2 := by
  unfold KmerStream.next
  by_cases h1 : s.stream_finished = true ∧ s.buffer.length < s.k
  · rw [if_pos h1]
    exact h
  · rw [if_neg h1]
    have h2 := fillBuffer_inv ls s h
    by_cases h3 : (fillBuffer s).buffer.length < (fillBuffer s).k
    · rw [if_pos h3]
      exact h2
    · rw [if_neg h3]
      exact (StreamInv_buffer ls (fillBuffer s) _).mpr h2

/-- Consuming any number of k-mers preserves the stream invariant. -/
theorem consume_inv (ls : List (List ℕ)) :
    ∀ (n : ℕ) (s : KmerStream), StreamInv ls s → StreamInv ls (consumeNext n s)
  | 0, _, h => h
  | n + 1, s, h => consume_inv ls n (s.next).2 (next_inv ls s h)

/-- The `Drop` loop consumes exactly the remaining sequence lines: it
stops with the next `>` line in the buffer, or at end of input. -/
theorem dropLoop_spec :
    ∀ (inp : List (List ℕ)) (lineb : List ℕ) (fin : Bool) (idf : Option (List ℕ)),
      (fin = true → inp = []) →
      ((inp.dropWhile (fun l => !startsGt l) = [] →
          dropLoop ⟨inp, lineb, fin, idf⟩ = ⟨[], [], true, idf⟩) ∧
        (∀ h t, inp.dropWhile (fun l => !startsGt l) = h :: t →
          dropLoop ⟨inp, lineb, fin, idf⟩ = ⟨t, h, false, idf⟩))
  | [], lineb, fin, idf, _ => by
    constructor
    · intro _
      rw [dropLoop]
    · intro h t hcons
      simp at hcons
  | l :: rest, lineb, fin, idf, hfin => by
    have hfin' : fin = false := by
      cases fin
      · rfl
      · exact absurd (hfin rfl) (by simp)
    subst hfin'
    by_cases hgt : startsGt l = true
    · constructor
      · intro hnil
        rw [List.dropWhile_cons] at hnil
        simp [hgt] at hnil
      · intro h t hcons
        rw [List.dropWhile_cons] at hcons
        simp only [hgt, Bool.not_true, Bool.false_eq_true, if_false] at hcons
        injection hcons with hc1 hc2
        subst hc1
        subst hc2
        rw [dropLoop]
        simp [hgt]
    · have hrec := dropLoop_spec rest l false idf (by simp)
      have hdw : (l :: rest).dropWhile (fun l => !startsGt l)
          = rest.dropWhile (fun l => !startsGt l) := by
        rw [List.dropWhile_cons]
        simp [hgt]
      constructor
      · intro hnil
        rw [hdw] at hnil
        rw [dropLoop]
        simp only [hgt, Bool.false_eq_true, if_false]
        exact hrec.1 hnil
      · intro h t hcons
        rw [hdw] at hcons
        rw [dropLoop]
        simp only [hgt, Bool.false_eq_true, if_false]
        exact hrec.2 h t hcons

/-- A record-marker line is non-empty. -/
theorem startsGt_ne_nil (l : List ℕ) (h : startsGt l = true) : l ≠ [] := by
  intro hnil
  subst hnil
  simp [startsGt] at h

/-- `next_record` on a finished reader reports no more records. -/
theorem nextRecord_finished (r : FastaReader) (hfin : r.finished = true) :
    nextRecord r = .ok (false, r) := by
  unfold nextRecord
  rw [if_pos hfin]

/-- `next_record` with a pending `>` line succeeds with its identifier. -/
theorem nextRecord_at_marker (inp : List (List ℕ)) (h : List ℕ)
    (idf : Option (List ℕ)) (hgt : startsGt h = true) :
    nextRecord ⟨inp, h, false, idf⟩
      = .ok (true, ⟨inp, [], false, some (parseId h)⟩) := by
  unfold nextRecord
  rw [if_neg (by simp), if_neg (startsGt_ne_nil h hgt)]
  simp [hgt]

/-- The first element surviving `dropWhile` fails the predicate. -/
theorem dropWhile_cons_not (p : List ℕ → Bool) :
    ∀ (a : List (List ℕ)) (h : List ℕ) (t : List (List ℕ)),
      a.dropWhile p = h :: t → p h = false
  | [], h, t, he => by simp at he
  | x :: a, h, t, he => by
    rw [List.dropWhile_cons] at he
    by_cases hx : p x = true
    · rw [if_pos hx] at he
      exact dropWhile_cons_not p a h t he
    · rw [if_neg hx] at he
      injection he with h1 _
      subst h1
      exact Bool.eq_false_iff.mpr hx

/-- `next_record` on an unfinished reader holding a `>` line. -/
theorem nextRecord_marker (r : FastaReader) (hfin : r.finished = false)
    (hgt : startsGt r.line = true) :
    nextRecord r
      = .ok (true, { r with line := [], id := some (parseId r.line) }) := by
  unfold nextRecord
  rw [if_neg (by simp [hfin]), if_neg (startsGt_ne_nil _ hgt), if_pos hgt]

/-- C3: for every input line stream, any consistent starting reader state
and every number `n` of k-mers actually consumed, releasing the k-mer
iterator (exhausted or not) leaves the reader positioned so that the next
`next_record()` call returns the next record's identifier when a further
record marker exists, and reports no more records at end of input. -/
theorem kmer_stream_drop_repositions (ls : List (List ℕ)) (lineb : List ℕ)
    (fin : Bool) (idf : Option (List ℕ)) (hfin : fin = true → ls = [])
    (k n : ℕ) :
    (ls.dropWhile (fun l => !startsGt l) = [] →
      ∃ r', nextRecord (dropStream (consumeNext n
        (KmerStream.new ⟨ls, lineb, fin, idf⟩ k))) = .ok (false, r')) ∧
    (∀ h t, ls.dropWhile (fun l => !startsGt l) = h :: t →
      ∃ r', nextRecord (dropStream (consumeNext n
        (KmerStream.new ⟨ls, lineb, fin, idf⟩ k))) = .ok (true, r') ∧
        r'.id = some (parseId h)) := by
  have hinv0 : StreamInv ls (KmerStream.new ⟨ls, lineb, fin, idf⟩ k) := by
    left
    refine ⟨rfl, ⟨[], rfl, by simp⟩, ?_⟩
    intro hf
    simp only [KmerStream.new] at hf ⊢
    exact hfin hf
  have hinv := consume_inv ls n _ hinv0
  set s := consumeNext n (KmerStream.new ⟨ls, lineb, fin, idf⟩ k) with hs
  rcases hinv with ⟨hsf, ⟨p, hp, hpall⟩, hfininv⟩ | ⟨hsf, hB⟩
  · unfold dropStream
    rw [if_neg (by simp [hsf])]
    have hpred : ∀ l ∈ p, (fun l => !startsGt l) l = true := by
      intro l hl
      simp [hpall l hl]
    rcases hr : s.reader with ⟨inp, lb2, f2, id2⟩
    have hfin2 : f2 = true → inp = [] := by
      intro hf
      have := hfininv (by rw [hr]; exact hf)
      rw [hr] at this
      exact this
    obtain ⟨hd1, hd2⟩ := dropLoop_spec inp lb2 f2 id2 hfin2
    have hdw : ls.dropWhile (fun l => !startsGt l)
        = inp.dropWhile (fun l => !startsGt l) := by
      conv_lhs => rw [hp, hr]
      exact dropWhile_append_all _ p inp hpred
    constructor
    · intro hnil
      rw [hdw] at hnil
      rw [hd1 hnil]
      exact ⟨_, nextRecord_finished _ rfl⟩
    · intro h t hcons
      rw [hdw] at hcons
      have hgt : startsGt h = true := by
        have := dropWhile_cons_not _ inp h t hcons
        simpa using this
      rw [hd2 h t hcons]
      exact ⟨_, nextRecord_at_marker t h id2 hgt, rfl⟩
  · rcases hB with ⟨p, t, hp, hpall, hgt, hinp, hfin2⟩ | ⟨hall, hinp, hfin2, hline⟩
    · unfold dropStream
      rw [if_pos hsf]
      have hpred : ∀ l ∈ p, (fun l => !startsGt l) l = true := by
        intro l hl
        simp [hpall l hl]
      have hdw : ls.dropWhile (fun l => !startsGt l) = s.reader.line :: t := by
        rw [hp, dropWhile_append_all _ p _ hpred, List.dropWhile_cons]
        simp [hgt]
      constructor
      · intro hnil
        rw [hdw] at hnil
        simp at hnil
      · intro h t' hcons
        rw [hdw] at hcons
        injection hcons with hc1 hc2
        refine ⟨_, nextRecord_marker s.reader hfin2 hgt, ?_⟩
        rw [← hc1]
    · unfold dropStream
      rw [if_pos hsf]
      constructor
      · intro _
        exact ⟨_, nextRecord_finished s.reader hfin2⟩
      · intro h t hcons
        have hnil : ls.dropWhile (fun l => !startsGt l) = [] := by
          apply dropWhile_eq_nil_of_all
          intro l hl
          simp [hall l hl]
        rw [hnil] at hcons
        simp at hcons

/-- Witness for C3: lines `AC\n`, `>r2\n`, `GG\n`, `k = 2`, one k-mer
consumed before the drop; `next_record` then returns the id `r2`. -/
theorem kmer_stream_drop_repositions_witness :
    ((false : Bool) = true →
      ([[65, 67, 10], [62, 114, 50, 10], [71, 71, 10]] : List (List ℕ)) = []) ∧
    (([[65, 67, 10], [62, 114, 50, 10], [71, 71, 10]] : List (List ℕ)).dropWhile
        (fun l => !startsGt l) = [62, 114, 50, 10] :: [[71, 71, 10]]) ∧
    ∃ r', nextRecord (dropStream (consumeNext 1
        (KmerStream.new ⟨[[65, 67, 10], [62, 114, 50, 10], [71, 71, 10]], [], false, none⟩ 2)))
        = .ok (true, r') ∧ r'.id = some (parseId [62, 114, 50, 10]) :=
  ⟨by decide, by decide,
    (kmer_stream_drop_repositions [[65, 67, 10], [62, 114, 50, 10], [71, 71, 10]]
        [] false none (by decide) 2 1).2
      [62, 114, 50, 10] [[71, 71, 10]] (by decide)⟩
